import Mathlib

/-!
Verification of the log-line parser and statistics aggregator of
`parse-i2p-eepsite-logs.py` against its specification.

The Python source is shallowly embedded:

* Python `str` values are `String` / `List Char`; `str.split(sep)` (for a
  nonempty separator) is `splitOnL`, leftmost non-overlapping splitting.
* `datetime` values are `DateTime` records (year/month/day/hour/minute/second,
  no timezone — the parser discards the offset).  Comparison of `datetime`
  values and subtraction of a day-valued `timedelta` are carried out on the
  proleptic-Gregorian second count `DateTime.toSecs` (CPython's `_ymd2ord`
  formula), which is strictly monotone in the component-lexicographic order
  that CPython uses on valid datetimes.
* `datetime.strptime(s, "%d/%b/%Y:%H:%M:%S")` is `strptimeDMY`: 1-2 digit
  day/hour/minute/second fields with the ranges of CPython's `_strptime`
  regexes, a case-insensitive three-letter month abbreviation (ASCII case
  folding; CPython's regex additionally accepts non-ASCII decimal digits,
  which is not modelled), an exactly-four-digit year ≥ 1 (`datetime.MINYEAR`),
  full-string match, and the day-of-month validity check performed by the
  `datetime` constructor.
* `collections.Counter` built from an iterable is `counterOf`: an association
  list in first-insertion order; `most_common(n)` is a stable sort by count
  descending (`sortByCountDesc`, matching `heapq.nlargest`'s tie behaviour)
  followed by `take n`.  `defaultdict(int)` accumulation uses the same
  `counterOf`, and `sorted(dict.items())` on distinct keys is `sortItemsAsc`.
* `try ... except (IndexError, ValueError): return None` is the `Option`
  monad; Python's `lst[i]` on a split result is `List.get?`.
* The float division in `average_page_loads_per_month` is modelled exactly
  over `ℚ` (the claims' instances are exactly representable).
-/

/-- A `datetime.datetime` value as constructed by the parser: second
precision, no timezone. -/
structure DateTime where
  year : Nat
  month : Nat
  day : Nat
  hour : Nat
  minute : Nat
  second : Nat
deriving DecidableEq

/-- Gregorian leap-year test (as in CPython's `datetime` module). -/
def isLeap (y : Nat) : Bool := y % 4 == 0 && (y % 100 != 0 || y % 400 == 0)

/-- Number of days in a month (1 = January … 12 = December). -/
def daysInMonth (y m : Nat) : Nat :=
  if m = 2 then (if isLeap y then 29 else 28)
  else if m = 4 ∨ m = 6 ∨ m = 9 ∨ m = 11 then 30
  else 31

/-- Days in the months strictly before month `m` of year `y`. -/
def daysBeforeMonth (y m : Nat) : Nat :=
  (List.range (m - 1)).foldl (fun a i => a + daysInMonth y (i + 1)) 0

/-- Proleptic-Gregorian ordinal of a date (day 1 = 0001-01-01), the
`_ymd2ord` formula of CPython's `datetime` module. -/
def toOrdinal (y m d : Nat) : Nat :=
  365 * (y - 1) + (y - 1) / 4 - (y - 1) / 100 + (y - 1) / 400 + daysBeforeMonth y m + d

/-- Second count of a datetime on the proleptic-Gregorian time line.  CPython
compares `datetime` values lexicographically by components; on the valid
datetimes the program constructs this agrees with comparing `toSecs`. -/
def DateTime.toSecs (t : DateTime) : Int :=
  (toOrdinal t.year t.month t.day : Int) * 86400 + t.hour * 3600 + t.minute * 60 + t.second

/-- Numeric value of a list of decimal digits (most significant first). -/
def digitsVal (ds : List Char) : Nat :=
  ds.foldl (fun a c => a * 10 + (c.toNat - '0'.toNat)) 0

/-- The lower-cased three-letter month abbreviations recognised by `%b` in
the C locale, month 1 first. -/
def monthAbbrevs : List (List Char) :=
  [['j','a','n'], ['f','e','b'], ['m','a','r'], ['a','p','r'],
   ['m','a','y'], ['j','u','n'], ['j','u','l'], ['a','u','g'],
   ['s','e','p'], ['o','c','t'], ['n','o','v'], ['d','e','c']]

/-- Look up a (lower-cased) three-character month abbreviation, returning the
1-based month number. -/
def monthNumAux : List (List Char) → Nat → List Char → Option Nat
  | [], _, _ => none
  | a :: rest, n, s => if s = a then some n else monthNumAux rest (n + 1) s

/-- Month number of a candidate `%b` field: three characters, matched
case-insensitively (ASCII folding, as the `re.IGNORECASE` month regex does
for the C-locale names). -/
def monthNumOf (s : List Char) : Option Nat :=
  monthNumAux monthAbbrevs 1 (s.map Char.toLower)

/-- Consume one expected literal character of the format string. -/
def expectChar (c : Char) : List Char → Option (List Char)
  | [] => none
  | x :: rest => if x = c then some rest else none

/-- Read a 1-2 digit numeric field with an inclusive range bound, as the
`_strptime` regexes for `%d`/`%H`/`%M`/`%S` do (a longer digit run makes the
overall pattern fail because the following literal cannot match a digit). -/
def readNumField (lo hi : Nat) (s : List Char) : Option (Nat × List Char) :=
  let ds := s.takeWhile Char.isDigit
  if ds.length = 0 ∨ 2 < ds.length then none
  else if lo ≤ digitsVal ds ∧ digitsVal ds ≤ hi then
    some (digitsVal ds, s.dropWhile Char.isDigit)
  else none

/-- Read the `%Y` field: exactly four digits, and ≥ 1 because the `datetime`
constructor rejects years below `MINYEAR = 1`. -/
def readYear (s : List Char) : Option (Nat × List Char) :=
  let ds := s.takeWhile Char.isDigit
  if ds.length = 4 ∧ 1 ≤ digitsVal ds then some (digitsVal ds, s.dropWhile Char.isDigit)
  else none

/-- `datetime.strptime(s, "%d/%b/%Y:%H:%M:%S")`, returning `none` where
CPython raises `ValueError` (pattern mismatch, unconverted trailing data, or
a day that is out of range for the month). -/
def strptimeDMY (s : List Char) : Option DateTime := do
  let (day, s) ← readNumField 1 31 s
  let s ← expectChar '/' s
  let mon ← monthNumOf (s.take 3)
  let s ← expectChar '/' (s.drop 3)
  let (year, s) ← readYear s
  let s ← expectChar ':' s
  let (hour, s) ← readNumField 0 23 s
  let s ← expectChar ':' s
  let (minute, s) ← readNumField 0 59 s
  let s ← expectChar ':' s
  let (second, s) ← readNumField 0 59 s
  if s = [] ∧ day ≤ daysInMonth year mon then
    some ⟨year, mon, day, hour, minute, second⟩
  else none

/-- Fuel-driven worker for `splitOnL`; `fuel` only has to dominate the length
of the list, so the recursion is structural and kernel-reducible. -/
def splitOnAux (sep : List Char) : Nat → List Char → List (List Char)
  | _, [] => [[]]
  | 0, s => [s]
  | fuel + 1, c :: rest =>
    if sep.isPrefixOf (c :: rest) then
      [] :: splitOnAux sep fuel ((c :: rest).drop sep.length)
    else
      match splitOnAux sep fuel rest with
      | [] => [[c]]
      | t :: ts => (c :: t) :: ts

/-- Python `str.split(sep)` for a nonempty separator: split at every leftmost
non-overlapping occurrence of `sep`. -/
def splitOnL (sep s : List Char) : List (List Char) :=
  if sep.isEmpty then [s] else splitOnAux sep s.length s

/-- Python `sub in s` (substring containment). -/
def containsSub (sub : List Char) : List Char → Bool
  | [] => sub.isEmpty
  | c :: t => sub.isPrefixOf (c :: t) || containsSub sub t

/-- One parsed log line (the sole domain entity). -/
structure LogEntry where
  router : String
  date : DateTime
  request : String
  status_code : String
deriving DecidableEq

/-- The router/auth-placeholder separator `" -  -  ["`. -/
def sepRouter : List Char := [' ', '-', ' ', ' ', '-', ' ', ' ', '[']

/-- `line.split('[')[1].split(' +')[0]`: the raw timestamp text. -/
def dateStringOf (l : List Char) : Option (List Char) :=
  ((splitOnL ['['] l).get? 1).bind fun seg => (splitOnL [' ', '+'] seg).get? 0

/-- `line.split('" ')[1].split(' -')[0]`: the status-code token. -/
def statusStringOf (l : List Char) : Option (List Char) :=
  ((splitOnL ['"', ' '] l).get? 1).bind fun seg => (splitOnL [' ', '-'] seg).get? 0

/-- `parse_log_line`: extract router, timestamp, request and status code from
one line, `none` on `IndexError`/`ValueError` (any structural failure). -/
def parse_log_line (line : String) : Option LogEntry := do
  let router ← (splitOnL sepRouter line.data).get? 0
  let ds ← dateStringOf line.data
  let request ← (splitOnL ['"'] line.data).get? 1
  let status ← statusStringOf line.data
  let date ← strptimeDMY ds
  some { router := String.mk router, date := date,
         request := String.mk request, status_code := String.mk status }

/-- Fuel-driven worker for `firstDedup` (structural, kernel-reducible). -/
def firstDedupAux {α : Type} [DecidableEq α] : Nat → List α → List α
  | _, [] => []
  | 0, l => l
  | f + 1, a :: l => a :: firstDedupAux f (l.filter fun b => b != a)

/-- The distinct values of a list in order of first occurrence — the key
order of a Python dict filled by iterating the list. -/
def firstDedup {α : Type} [DecidableEq α] (l : List α) : List α :=
  firstDedupAux l.length l

/-- One counting step of `Counter`/`defaultdict(int)`: increment key `k`,
appending it with count 1 if absent (dict insertion order). -/
def incKey {α : Type} [DecidableEq α] : List (α × Nat) → α → List (α × Nat)
  | [], k => [(k, 1)]
  | (k', c) :: rest, k => if k' = k then (k', c + 1) :: rest else (k', c) :: incKey rest k

/-- `collections.Counter(ks)` (also `defaultdict(int)` accumulation): counts
as an association list in first-insertion key order. -/
def counterOf {α : Type} [DecidableEq α] (ks : List α) : List (α × Nat) :=
  ks.foldl incKey []

/-- Insert into a count-descending list, before the first entry with a count
`≤` the new one (the stable position). -/
def insertByCount {α : Type} (x : α × Nat) : List (α × Nat) → List (α × Nat)
  | [] => [x]
  | y :: ys => if y.2 ≤ x.2 then x :: y :: ys else y :: insertByCount x ys

/-- Stable sort by count descending — the `Counter.most_common` order
(`heapq.nlargest` breaks count ties by iteration order). -/
def sortByCountDesc {α : Type} : List (α × Nat) → List (α × Nat)
  | [] => []
  | x :: xs => insertByCount x (sortByCountDesc xs)

/-- Lexicographic code-point comparison of character lists — Python's `str`
ordering, and the order underlying `String.lt`. -/
def lexLt : List Char → List Char → Bool
  | [], [] => false
  | [], _ :: _ => true
  | _ :: _, [] => false
  | a :: as, b :: bs => if a < b then true else if b < a then false else lexLt as bs

/-- Insert into a list sorted ascending by (distinct) string key. -/
def insertByKey {α : Type} (x : String × α) : List (String × α) → List (String × α)
  | [] => [x]
  | y :: ys => if lexLt x.1.data y.1.data then x :: y :: ys else y :: insertByKey x ys

/-- `sorted(d.items())` on distinct string keys: ascending by key. -/
def sortItemsAsc {α : Type} : List (String × α) → List (String × α)
  | [] => []
  | x :: xs => insertByKey x (sortItemsAsc xs)

/-- The non-loopback router of each entry, in entry order (the iteration
underlying `Counter(entry['router'] ... if entry['router'] != '127.0.0.1')`). -/
def routerKeys (entries : List LogEntry) : List String :=
  (entries.filter fun e => e.router != "127.0.0.1").map fun e => e.router

/-- `router_requests.most_common(50)`. -/
def top_50_routers (entries : List LogEntry) : List (String × Nat) :=
  (sortByCountDesc (counterOf (routerKeys entries))).take 50

/-- `len([entry for entry in log_entries if ".html" in entry['request']])`. -/
def total_html_requests (entries : List LogEntry) : Nat :=
  (entries.filter fun e => containsSub ['.', 'h', 't', 'm', 'l'] e.request.data).length

/-- The four literally ignored request values. -/
def ignored_requests : List String := ["GET /", "GET /styles.css", "GET /favicon.png", "HEAD /"]

/-- `request.endswith(('.png', '.ico', '.css'))`. -/
def endsWithPIC (r : String) : Bool :=
  [['.','p','n','g'], ['.','i','c','o'], ['.','c','s','s']].any fun s => s.isSuffixOf r.data

/-- The request of each entry surviving the page filters, in entry order. -/
def pageKeys (entries : List LogEntry) : List String :=
  (entries.filter fun e => !(endsWithPIC e.request || decide (e.request ∈ ignored_requests))).map
    fun e => e.request

/-- `page_requests.most_common(50)`. -/
def top_50_pages (entries : List LogEntry) : List (String × Nat) :=
  (sortByCountDesc (counterOf (pageKeys entries))).take 50

/-- `current_date - timedelta(days=56 * 30)`, as a second count (CPython
datetime arithmetic is exact, so the difference is exactly `56·30·86400`
seconds on the time line). -/
def fifty_six_months_ago (now : DateTime) : Int := now.toSecs - 56 * 30 * 86400

/-- Zero-pad a number to two digits (`%m`, `%d`, `%H`, `%M`, `%S`). -/
def pad2 (n : Nat) : String := if n < 10 then "0" ++ toString n else toString n

/-- `date.strftime("%Y-%m")` (glibc prints `%Y` unpadded). -/
def ymKey (t : DateTime) : String := toString t.year ++ "-" ++ pad2 t.month

/-- The `"%Y-%m"` key of each entry inside the 56×30-day window, in entry
order (the iteration filling `monthly_requests`). -/
def monthKeys (entries : List LogEntry) (now : DateTime) : List String :=
  (entries.filter fun e => fifty_six_months_ago now < e.date.toSecs).map fun e => ymKey e.date

/-- `sorted(monthly_requests.items())`. -/
def monthly_requests (entries : List LogEntry) (now : DateTime) : List (String × Nat) :=
  sortItemsAsc (counterOf (monthKeys entries now))

/-- `sum(monthly_requests.values()) / total_months if total_months > 0 else 0`
(modelled exactly over `ℚ`). -/
def average_page_loads_per_month (entries : List LogEntry) (now : DateTime) : ℚ :=
  let mc := counterOf (monthKeys entries now)
  if 0 < mc.length then ((mc.map fun p => p.2).sum : ℚ) / (mc.length : ℚ) else 0

/-- `Counter(hours).most_common(1)[0][0] if hours else None`. -/
def most_popular_time (entries : List LogEntry) : Option Nat :=
  let hours := entries.map fun e => e.date.hour
  if hours.isEmpty then none
  else (sortByCountDesc (counterOf hours)).head?.map fun p => p.1

/-- The capitalised month abbreviations printed by `%b` in the C locale. -/
def monthNamesCap : List String :=
  ["Jan", "Feb", "Mar", "Apr", "May", "Jun", "Jul", "Aug", "Sep", "Oct", "Nov", "Dec"]

/-- `current_date.strftime("%d/%b/%Y %H:%M:%S")`. -/
def last_update (now : DateTime) : String :=
  pad2 now.day ++ "/" ++ monthNamesCap.getD (now.month - 1) "" ++ "/" ++ toString now.year ++
    " " ++ pad2 now.hour ++ ":" ++ pad2 now.minute ++ ":" ++ pad2 now.second

/-- The immutable summary returned by `generate_statistics`. -/
structure Statistics where
  top_50_routers : List (String × Nat)
  total_html_requests : Nat
  top_50_pages : List (String × Nat)
  average_page_loads_per_month : ℚ
  monthly_requests : List (String × Nat)
  most_popular_time : Option Nat
  last_update : String
deriving DecidableEq

/-- `generate_statistics(log_entries)` with the wall-clock reference
`datetime.now()` passed explicitly as `now`. -/
def generate_statistics (entries : List LogEntry) (now : DateTime) : Statistics :=
  { top_50_routers := top_50_routers entries
    total_html_requests := total_html_requests entries
    top_50_pages := top_50_pages entries
    average_page_loads_per_month := average_page_loads_per_month entries now
    monthly_requests := monthly_requests entries now
    most_popular_time := most_popular_time entries
    last_update := last_update now }

/-- A line in the expected input format of §6:
`<router> -  -  [<date> +<tz>] "<request>" <status> -<trailing>`. -/
def mkLine (R D TZ req ST rest : List Char) : List Char :=
  R ++ sepRouter ++ D ++ [' ', '+'] ++ TZ ++ [']', ' ', '"'] ++ req ++ ['"', ' '] ++ ST ++
    [' ', '-'] ++ rest

/-- A line without the `" -  -  ["` separator (single spaces) that the code
nevertheless parses. -/
def c2line : String := "router - - [10/Jan/2024:13:45:02 +0000] \x22GET /x\x22 200 -"

/-- Entries realising router counts `{A: 5, 127.0.0.1: 100, B: 3}`. -/
def c3entries : List LogEntry :=
  List.replicate 5 ⟨"A", ⟨2024, 1, 15, 13, 0, 0⟩, "GET /x.html", "200"⟩ ++
    List.replicate 100 ⟨"127.0.0.1", ⟨2024, 1, 15, 13, 0, 0⟩, "GET /x.html", "200"⟩ ++
    List.replicate 3 ⟨"B", ⟨2024, 1, 15, 13, 0, 0⟩, "GET /x.html", "200"⟩

/-- Entries with `GET /favicon.png` most frequent (12×), then `GET /a.html`
(10×) and `GET /b.html` (5×). -/
def c4entries : List LogEntry :=
  List.replicate 12 ⟨"R", ⟨2024, 1, 15, 13, 0, 0⟩, "GET /favicon.png", "200"⟩ ++
    List.replicate 10 ⟨"R", ⟨2024, 1, 15, 13, 0, 0⟩, "GET /a.html", "200"⟩ ++
    List.replicate 5 ⟨"R", ⟨2024, 1, 15, 13, 0, 0⟩, "GET /b.html", "200"⟩

/-- Reference time for the window examples; `now - 1680 days` is
2019-10-26 00:00:00. -/
def c5now : DateTime := ⟨2024, 6, 1, 0, 0, 0⟩

/-- An entry one second before `c5now - 56×30 days`. -/
def c5before : LogEntry := ⟨"R", ⟨2019, 10, 25, 23, 59, 59⟩, "GET /x.html", "200"⟩

/-- An entry one second after `c5now - 56×30 days`. -/
def c5after : LogEntry := ⟨"R", ⟨2019, 10, 26, 0, 0, 1⟩, "GET /x.html", "200"⟩

/-- Entries realising monthly counts `{2024-01: 10, 2024-02: 20}` under
`c5now`. -/
def c6entries : List LogEntry :=
  List.replicate 10 ⟨"R", ⟨2024, 1, 15, 0, 0, 0⟩, "GET /x.html", "200"⟩ ++
    List.replicate 20 ⟨"R", ⟨2024, 2, 15, 0, 0, 0⟩, "GET /x.html", "200"⟩

/-- An entry exactly at the window cutoff of `c5now`, inside the window of
any earlier reference time. -/
def c8entry : LogEntry := ⟨"R", ⟨2019, 10, 26, 0, 0, 0⟩, "GET /x.html", "200"⟩

/-- A loopback entry with an `.html` request. -/
def c10entry : LogEntry := ⟨"127.0.0.1", ⟨2024, 1, 15, 13, 0, 0⟩, "GET /a.html", "200"⟩

/-! ### Occurrences of a pattern in a character list -/

theorem sub_cons {l t : List Char} (a : Char) (h : l <:+: t) : l <:+: a :: t :=
  h.trans (List.suffix_cons a t).isInfix

theorem sub2_mem {a b : Char} {l : List Char} (h : [a, b] <:+: l) : a ∈ l ∧ b ∈ l := by
  obtain ⟨s, t, rfl⟩ := h
  constructor <;> simp

theorem not_sub2_left {a b : Char} {l : List Char} (h : a ∉ l) : ¬ [a, b] <:+: l :=
  fun hs => h (sub2_mem hs).1

theorem sub1_iff_mem (c : Char) (l : List Char) : [c] <:+: l ↔ c ∈ l := by
  constructor
  · rintro ⟨s, t, rfl⟩; simp
  · intro h
    obtain ⟨s, t, rfl⟩ := List.append_of_mem h
    exact ⟨s, t, by simp⟩

theorem prefix2_iff {a b : Char} {l : List Char} : [a, b] <+: l ↔ ∃ zs, l = a :: b :: zs := by
  constructor
  · rintro ⟨t, rfl⟩; exact ⟨t, rfl⟩
  · rintro ⟨zs, rfl⟩; exact ⟨zs, rfl⟩

theorem sub2_append {a b : Char} {u v : List Char} (h : [a, b] <:+: (u ++ v)) :
    [a, b] <:+: u ∨ [a, b] <:+: v ∨ (u.getLast? = some a ∧ v.head? = some b) := by
  induction u with
  | nil => exact Or.inr (Or.inl (by simpa using h))
  | cons c u' ih =>
    obtain ⟨s, t, hst⟩ := h
    cases s with
    | nil =>
      rw [List.nil_append, List.cons_append] at hst
      injection hst with hca hrest
      cases u' with
      | nil =>
        subst hca
        refine Or.inr (Or.inr ⟨rfl, ?_⟩)
        simp only [List.append_eq, List.nil_append, List.cons_append] at hrest
        rw [← hrest]
        rfl
      | cons e u'' =>
        rw [List.cons_append] at hrest
        injection hrest with hbe _
        subst hca; subst hbe
        exact Or.inl ⟨[], u'', rfl⟩
    | cons d s' =>
      rw [List.cons_append, List.cons_append, List.cons_append] at hst
      injection hst with _ hrest
      rcases ih ⟨s', t, hrest⟩ with h' | h' | h'
      · exact Or.inl (sub_cons c h')
      · exact Or.inr (Or.inl h')
      · refine Or.inr (Or.inr ⟨?_, h'.2⟩)
        cases u' with
        | nil => simp at h'
        | cons x xs => rw [List.getLast?_cons_cons]; exact h'.1

theorem not_sub2_append {a b : Char} {u v : List Char} (hu : ¬ [a, b] <:+: u)
    (hv : ¬ [a, b] <:+: v) (hj : ¬ (u.getLast? = some a ∧ v.head? = some b)) :
    ¬ [a, b] <:+: (u ++ v) := by
  intro h
  rcases sub2_append h with h' | h' | h'
  · exact hu h'
  · exact hv h'
  · exact hj h'

/-! ### Properties of `splitOnL` -/

theorem splitOnAux_ne_nil (sep : List Char) : ∀ f s, splitOnAux sep f s ≠ [] := by
  intro f s
  cases f with
  | zero => cases s <;> simp [splitOnAux]
  | succ f =>
    cases s with
    | nil => simp [splitOnAux]
    | cons c rest =>
      simp only [splitOnAux]
      split
      · simp
      · split <;> simp

theorem splitOnL_ne_nil (sep s : List Char) : splitOnL sep s ≠ [] := by
  unfold splitOnL
  split
  · simp
  · exact splitOnAux_ne_nil sep s.length s

theorem splitOnAux_fuel {sep : List Char} (hsep : sep ≠ []) :
    ∀ f₁ f₂ s, s.length ≤ f₁ → s.length ≤ f₂ → splitOnAux sep f₁ s = splitOnAux sep f₂ s := by
  intro f₁
  induction f₁ with
  | zero =>
    intro f₂ s h1 _
    have hs : s = [] := List.eq_nil_of_length_eq_zero (Nat.le_zero.mp h1)
    subst hs; cases f₂ <;> rfl
  | succ f ih =>
    intro f₂ s h1 h2
    cases s with
    | nil => cases f₂ <;> rfl
    | cons c rest =>
      cases f₂ with
      | zero => simp at h2
      | succ f₂' =>
        have hsl : 1 ≤ sep.length := List.length_pos.mpr hsep
        simp only [splitOnAux]
        by_cases hp : sep.isPrefixOf (c :: rest)
        · rw [if_pos hp, if_pos hp]
          congr 1
          apply ih
          · simp only [List.length_drop, List.length_cons]
            simp only [List.length_cons] at h1
            omega
          · simp only [List.length_drop, List.length_cons]
            simp only [List.length_cons] at h2
            omega
        · rw [if_neg hp, if_neg hp]
          rw [ih f₂' rest (by simp only [List.length_cons] at h1; omega)
            (by simp only [List.length_cons] at h2; omega)]

theorem prefixOf_iff {l₁ l₂ : List Char} : l₁.isPrefixOf l₂ = true ↔ l₁ <+: l₂ :=
  List.isPrefixOf_iff_prefix

theorem splitOnAux_not_sub {sep : List Char} (_hsep : sep ≠ []) :
    ∀ f s, s.length ≤ f → ¬ sep <:+: s → splitOnAux sep f s = [s] := by
  intro f
  induction f with
  | zero =>
    intro s h1 _
    have hs : s = [] := List.eq_nil_of_length_eq_zero (Nat.le_zero.mp h1)
    subst hs; rfl
  | succ f ih =>
    intro s h1 hsub
    cases s with
    | nil => rfl
    | cons c rest =>
      simp only [splitOnAux]
      have hp : ¬ sep.isPrefixOf (c :: rest) := by
        intro hp
        exact hsub (prefixOf_iff.mp hp).isInfix
      rw [if_neg hp]
      rw [ih rest (by simp only [List.length_cons] at h1; omega)
        (fun h => hsub (sub_cons c h))]

theorem splitOnL_not_sub {sep s : List Char} (hsep : sep ≠ []) (h : ¬ sep <:+: s) :
    splitOnL sep s = [s] := by
  unfold splitOnL
  rw [if_neg (by simpa using hsep)]
  exact splitOnAux_not_sub hsep s.length s le_rfl h

theorem sep_prefix_sub {sep x y : List Char} (hsep : sep ≠ []) (hx : x ≠ [])
    (hp : sep <+: (x ++ sep ++ y)) : sep <:+: (x ++ sep.dropLast) :=
  by
  have hdec : x ++ sep ++ y = (x ++ sep.dropLast) ++ ([sep.getLast hsep] ++ y) := by
    conv_lhs => rw [← List.dropLast_append_getLast hsep]
    simp [List.append_assoc]
  have hpre : (x ++ sep.dropLast) <+: (x ++ sep ++ y) := ⟨[sep.getLast hsep] ++ y, hdec.symm⟩
  have hlen : sep.length ≤ (x ++ sep.dropLast).length := by
    have h1 : 1 ≤ x.length := List.length_pos.mpr hx
    have h2 : 1 ≤ sep.length := List.length_pos.mpr hsep
    simp only [List.length_append, List.length_dropLast]
    omega
  exact (List.prefix_of_prefix_length_le hp hpre hlen).isInfix

theorem splitOnAux_append_sep {sep : List Char} (hsep : sep ≠ []) :
    ∀ x f y, (x ++ sep ++ y).length ≤ f → ¬ sep <:+: (x ++ sep.dropLast) →
      splitOnAux sep f (x ++ sep ++ y) = x :: splitOnAux sep y.length y := by
  intro x
  induction x with
  | nil =>
    intro f y hf hnot
    obtain ⟨c, sep', rfl⟩ : ∃ c sep', sep = c :: sep' := by
      cases sep with
      | nil => exact absurd rfl hsep
      | cons c sep' => exact ⟨c, sep', rfl⟩
    simp only [List.nil_append] at hf ⊢
    cases f with
    | zero => simp at hf
    | succ f =>
      rw [List.cons_append]
      simp only [splitOnAux]
      have hp : (c :: sep').isPrefixOf (c :: (sep' ++ y)) := by
        rw [← List.cons_append]
        exact prefixOf_iff.mpr (List.prefix_append _ y)
      rw [if_pos hp]
      congr 1
      rw [← List.cons_append]
      rw [List.drop_left]
      apply splitOnAux_fuel hsep
      · simp only [List.length_append, List.length_cons] at hf
        omega
      · exact le_rfl
  | cons d x' ih =>
    intro f y hf hnot
    cases f with
    | zero => simp at hf
    | succ f =>
      rw [List.cons_append, List.cons_append]
      simp only [splitOnAux]
      have hp : ¬ sep.isPrefixOf (d :: (x' ++ sep ++ y)) := by
        intro hp
        apply hnot
        have := sep_prefix_sub hsep (List.cons_ne_nil d x')
          (by rw [List.cons_append, List.cons_append]
              exact prefixOf_iff.mp hp)
        exact this
      rw [if_neg hp]
      have hnot' : ¬ sep <:+: (x' ++ sep.dropLast) := by
        intro h
        apply hnot
        rw [List.cons_append]
        exact sub_cons d h
      have hrec := ih f y
        (by rw [List.cons_append, List.cons_append] at hf
            simp only [List.length_cons] at hf
            omega) hnot'
      rw [hrec]


theorem splitOnL_eq_aux {sep : List Char} (hsep : sep ≠ []) (s : List Char) :
    splitOnL sep s = splitOnAux sep s.length s := by
  unfold splitOnL
  rw [if_neg (by simpa using hsep)]

theorem splitOnL_append_sep {sep x y : List Char} (hsep : sep ≠ [])
    (h : ¬ sep <:+: (x ++ sep.dropLast)) :
    splitOnL sep (x ++ sep ++ y) = x :: splitOnL sep y := by
  rw [splitOnL_eq_aux hsep, splitOnL_eq_aux hsep]
  exact splitOnAux_append_sep hsep x _ y le_rfl h

theorem splitOnAux_head_single (c : Char) :
    ∀ f s, s.length ≤ f →
      (splitOnAux [c] f s).head? = some (s.takeWhile fun x => x != c) := by
  intro f
  induction f with
  | zero =>
    intro s h1
    have hs : s = [] := List.length_eq_zero.mp (Nat.le_zero.mp h1)
    subst hs; rfl
  | succ f ih =>
    intro s h1
    cases s with
    | nil => rfl
    | cons a rest =>
      simp only [splitOnAux]
      by_cases hac : a = c
      · have hp : ([c] : List Char).isPrefixOf (a :: rest) = true := by
          subst hac
          simp [List.isPrefixOf]
        rw [if_pos hp]
        subst hac
        simp [List.takeWhile_cons]
      · have hp : ¬ ([c] : List Char).isPrefixOf (a :: rest) = true := by
          simp [List.isPrefixOf]
          exact fun h => absurd h.symm hac
        rw [if_neg hp]
        rcases h' : splitOnAux [c] f rest with _ | ⟨t, ts⟩
        · exact absurd h' (splitOnAux_ne_nil _ _ _)
        · have := ih rest (by simp only [List.length_cons] at h1; omega)
          rw [h'] at this
          simp only [List.head?] at this
          injection this with hval
          simp only [List.takeWhile_cons]
          rw [if_pos (by simp [hac])]
          simp [hval]

theorem splitOnL_head_single (c : Char) (s : List Char) :
    (splitOnL [c] s).head? = some (s.takeWhile fun x => x != c) := by
  rw [splitOnL_eq_aux (by simp) s]
  exact splitOnAux_head_single c s.length s le_rfl

theorem splitOnAux_append_front (a b : Char) :
    ∀ x f r, (x ++ r).length ≤ f → ¬ [a, b] <:+: x → x.getLast? ≠ some a →
      splitOnAux [a, b] f (x ++ r) =
        (x ++ (splitOnAux [a, b] r.length r).headD []) :: (splitOnAux [a, b] r.length r).tail := by
  intro x
  induction x with
  | nil =>
    intro f r hf _ _
    simp only [List.nil_append]
    rw [splitOnAux_fuel (by simp : ([a, b] : List Char) ≠ []) f r.length r (by simpa using hf) le_rfl]
    rcases h' : splitOnAux [a, b] r.length r with _ | ⟨t, ts⟩
    · exact absurd h' (splitOnAux_ne_nil _ _ _)
    · simp
  | cons d x' ih =>
    intro f r hf hnot hlast
    cases f with
    | zero => simp at hf
    | succ f =>
      rw [List.cons_append]
      simp only [splitOnAux]
      have hp : ¬ ([a, b] : List Char).isPrefixOf (d :: (x' ++ r)) = true := by
        intro hp
        obtain ⟨zs, hz⟩ := prefix2_iff.mp (prefixOf_iff.mp hp)
        injection hz with h1 h2
        cases x' with
        | nil =>
          apply hlast
          rw [h1]
          rfl
        | cons e x'' =>
          rw [List.cons_append] at h2
          injection h2 with h3 _
          exact hnot ⟨[], x'', by rw [h1, h3]; rfl⟩
      rw [if_neg hp]
      have hlast' : x'.getLast? ≠ some a := by
        cases x' with
        | nil => simp
        | cons e x'' =>
          intro h
          apply hlast
          rw [List.getLast?_cons_cons]
          exact h
      have hnot' : ¬ [a, b] <:+: x' := fun h => hnot (sub_cons d h)
      have hrec := ih f r (by simp only [List.cons_append, List.length_cons] at hf; omega) hnot' hlast'
      rw [hrec]
      simp

theorem splitOnL_append_front {a b : Char} {x r : List Char} (hnot : ¬ [a, b] <:+: x)
    (hlast : x.getLast? ≠ some a) :
    splitOnL [a, b] (x ++ r) =
      (x ++ (splitOnL [a, b] r).headD []) :: (splitOnL [a, b] r).tail := by
  rw [splitOnL_eq_aux (by simp) (x ++ r), splitOnL_eq_aux (by simp) r]
  exact splitOnAux_append_front a b x _ r le_rfl hnot hlast

theorem splitOnL_get0_eq_head (sep s : List Char) :
    (splitOnL sep s).get? 0 = (splitOnL sep s).head? := by
  rcases h : splitOnL sep s with _ | ⟨t, ts⟩
  · exact absurd h (splitOnL_ne_nil _ _)
  · rfl

theorem takeWhile_append_all {p : Char → Bool} {u v : List Char} (h : ∀ x ∈ u, p x) :
    (u ++ v).takeWhile p = u ++ v.takeWhile p := by
  rw [List.takeWhile_append, List.takeWhile_eq_self_iff.mpr h, if_pos rfl]

theorem sub_cons_iff {sub : List Char} {c : Char} {t : List Char} :
    sub <:+: (c :: t) ↔ sub <+: (c :: t) ∨ sub <:+: t := by
  constructor
  · rintro ⟨s, u, hsu⟩
    cases s with
    | nil => exact Or.inl ⟨u, by simpa using hsu⟩
    | cons d s' =>
      rw [List.cons_append, List.cons_append] at hsu
      injection hsu with _ h2
      exact Or.inr ⟨s', u, h2⟩
  · rintro (⟨u, hu⟩ | h)
    · exact ⟨[], u, by simpa using hu⟩
    · exact sub_cons c h

theorem containsSub_iff (sub l : List Char) : containsSub sub l = true ↔ sub <:+: l := by
  induction l with
  | nil =>
    simp only [containsSub, List.isEmpty_iff]
    constructor
    · rintro rfl; exact ⟨[], [], rfl⟩
    · rintro ⟨s, t, h⟩
      rcases List.append_eq_nil.mp (List.append_eq_nil.mp h).1 with ⟨_, h2⟩
      exact h2
  | cons c t ih =>
    simp only [containsSub, Bool.or_eq_true]
    rw [prefixOf_iff, ih, sub_cons_iff]

theorem notMem_sub1 {c : Char} {l : List Char} (h : c ∉ l) : ¬ [c] <:+: l :=
  fun hs => h ((sub1_iff_mem c l).mp hs)

theorem splitOnL_get0_sep {sep x y : List Char} (hsep : sep ≠ [])
    (h : ¬ sep <:+: (x ++ sep.dropLast)) :
    (splitOnL sep (x ++ sep ++ y)).get? 0 = some x := by
  rw [splitOnL_append_sep hsep h]; rfl

theorem splitOnL_get1_sep {sep x y : List Char} (hsep : sep ≠ [])
    (h : ¬ sep <:+: (x ++ sep.dropLast)) :
    (splitOnL sep (x ++ sep ++ y)).get? 1 = (splitOnL sep y).get? 0 := by
  rw [splitOnL_append_sep hsep h]; rfl

theorem splitOnL_get1_single {c : Char} {A B : List Char} (hA : c ∉ A) :
    (splitOnL [c] (A ++ [c] ++ B)).get? 1 = some (B.takeWhile fun x => x != c) := by
  rw [splitOnL_get1_sep (by simp) (by simpa [sub1_iff_mem] using hA)]
  rw [splitOnL_get0_eq_head, splitOnL_head_single]

theorem data_mk (l : List Char) : (String.mk l).data = l := rfl

theorem not_mem_append2 {c : Char} {u v : List Char} (hu : c ∉ u) (hv : c ∉ v) :
    c ∉ u ++ v := by
  intro h
  rcases List.mem_append.mp h with h | h
  · exact hu h
  · exact hv h

theorem dateStringOf_mk {A D Z : List Char} (hA : '[' ∉ A) (hD2 : '[' ∉ D)
    (hD4 : ¬ [' ', '+'] <:+: (D ++ [' '])) :
    dateStringOf (A ++ ['['] ++ (D ++ [' ', '+'] ++ Z)) = some D := by
  unfold dateStringOf
  rw [splitOnL_get1_single hA]
  have hDall : ∀ x ∈ D, (x != '[') = true := fun x hx => bne_iff_ne.mpr fun h => hD2 (h ▸ hx)
  rw [List.append_assoc D [' ', '+'] Z, takeWhile_append_all hDall,
    takeWhile_append_all (u := [' ', '+']) (by decide), Option.some_bind,
    ← List.append_assoc D [' ', '+'] _]
  exact splitOnL_get0_sep (by decide) hD4

theorem statusStringOf_mk {A ST rest : List Char}
    (hA : ¬ ['"', ' '] <:+: (A ++ ['"']))
    (hST1 : '"' ∉ ST) (hST2 : ¬ [' ', '-'] <:+: (ST ++ [' '])) :
    statusStringOf (A ++ ['"', ' '] ++ (ST ++ [' ', '-'] ++ rest)) = some ST := by
  unfold statusStringOf
  rw [splitOnL_get1_sep (by decide) hA]
  have hfrontsub : ¬ ['"', ' '] <:+: (ST ++ [' ', '-']) := by
    refine not_sub2_append (not_sub2_left hST1) (by decide) ?_
    rintro ⟨hg, _⟩
    exact hST1 (List.mem_of_mem_getLast? hg)
  have hfrontlast : (ST ++ [' ', '-']).getLast? ≠ some '"' := by
    have h : ST ++ [' ', '-'] = (ST ++ [' ']) ++ ['-'] := by simp
    rw [h, List.getLast?_concat]
    simp
  rw [splitOnL_append_front hfrontsub hfrontlast]
  simp only [List.get?, Option.some_bind]
  exact splitOnL_get0_sep (by decide) hST2

theorem parse_none_of_none_date {line : String} (hds : dateStringOf line.data = none) :
    parse_log_line line = none := by
  unfold parse_log_line
  cases h0 : (splitOnL sepRouter line.data).get? 0 <;> simp [hds, h0]

theorem parse_none_of_none_req {line : String}
    (h : (splitOnL ['"'] line.data).get? 1 = none) : parse_log_line line = none := by
  unfold parse_log_line
  rw [List.get?_eq_getElem?] at h
  cases h0 : (splitOnL sepRouter line.data).get? 0 <;>
    cases h1 : dateStringOf line.data <;> simp [h, h0, h1]

theorem parse_none_of_bad_date {line : String} {ds : List Char}
    (h1 : dateStringOf line.data = some ds) (h2 : strptimeDMY ds = none) :
    parse_log_line line = none := by
  unfold parse_log_line
  cases h0 : (splitOnL sepRouter line.data).get? 0 <;>
    cases hq : (splitOnL ['"'] line.data).get? 1 <;>
    cases hs : statusStringOf line.data <;>
    rw [List.get?_eq_getElem?] at hq <;>
    simp [h0, h1, h2, hq, hs]

/-- **C1**: a line in the expected §6 format (with the structural
side-conditions that format imposes on the free fields) parses into an entry
whose four fields are exactly the §4.1 substrings/converted values, and a
line with a missing bracket, a missing quote-delimited field, or an
unparsable date — e.g. the line `"not a log line"` — yields no entry. -/
theorem claim_C1_parse_line :
    (∀ (R D TZ req ST rest : List Char) (d : DateTime),
      strptimeDMY D = some d →
      ¬ sepRouter <:+: (R ++ sepRouter.dropLast) →
      '[' ∉ R → '"' ∉ R →
      '[' ∉ D → '"' ∉ D → ¬ [' ', '+'] <:+: (D ++ [' ']) →
      '"' ∉ TZ →
      '"' ∉ req → req.head? ≠ some ' ' →
      '"' ∉ ST → ¬ [' ', '-'] <:+: (ST ++ [' ']) →
      parse_log_line (String.mk (mkLine R D TZ req ST rest)) =
        some ⟨String.mk R, d, String.mk req, String.mk ST⟩) ∧
    (∀ line : String, '[' ∉ line.data → parse_log_line line = none) ∧
    (∀ line : String, '"' ∉ line.data → parse_log_line line = none) ∧
    (∀ (line : String) (ds : List Char), dateStringOf line.data = some ds →
      strptimeDMY ds = none → parse_log_line line = none) ∧
    parse_log_line "not a log line" = none := by
  refine ⟨?_, ?_, ?_, ?_, by decide⟩
  · intro R D TZ req ST rest d hD hR1 hR2 hR3 hD2 hD3 hD4 hT1 hq1 hq2 hS1 hS2
    have h1 : (splitOnL sepRouter (mkLine R D TZ req ST rest)).get? 0 = some R := by
      rw [show mkLine R D TZ req ST rest =
        R ++ sepRouter ++ (D ++ [' ', '+'] ++ TZ ++ [']', ' ', '"'] ++ req ++ ['"', ' '] ++
          ST ++ [' ', '-'] ++ rest) from by simp [mkLine, List.append_assoc]]
      exact splitOnL_get0_sep (by decide) hR1
    have h2 : dateStringOf (mkLine R D TZ req ST rest) = some D := by
      rw [show mkLine R D TZ req ST rest =
        (R ++ [' ', '-', ' ', ' ', '-', ' ', ' ']) ++ ['['] ++
          (D ++ [' ', '+'] ++
            (TZ ++ ([']', ' ', '"'] ++ (req ++ (['"', ' '] ++ (ST ++ ([' ', '-'] ++ rest)))))))
        from by simp [mkLine, sepRouter, List.append_assoc]]
      exact dateStringOf_mk (not_mem_append2 hR2 (by decide)) hD2 hD4
    have h3 : (splitOnL ['"'] (mkLine R D TZ req ST rest)).get? 1 = some req := by
      rw [show mkLine R D TZ req ST rest =
        (R ++ (sepRouter ++ (D ++ ([' ', '+'] ++ (TZ ++ [']', ' ']))))) ++ ['"'] ++
          (req ++ (['"', ' '] ++ (ST ++ ([' ', '-'] ++ rest))))
        from by simp [mkLine, sepRouter, List.append_assoc]]
      rw [splitOnL_get1_single (not_mem_append2 hR3 (not_mem_append2 (by decide)
        (not_mem_append2 hD3 (not_mem_append2 (by decide)
          (not_mem_append2 hT1 (by decide))))))]
      congr 1
      have hreqall : ∀ x ∈ req, (x != '"') = true :=
        fun x hx => bne_iff_ne.mpr fun h => hq1 (h ▸ hx)
      rw [takeWhile_append_all hreqall]
      simp [List.takeWhile_cons]
    have h4 : statusStringOf (mkLine R D TZ req ST rest) = some ST := by
      rw [show mkLine R D TZ req ST rest =
        (R ++ (sepRouter ++ (D ++ ([' ', '+'] ++ (TZ ++ ([']', ' ', '"'] ++ req)))))) ++
          ['"', ' '] ++ (ST ++ [' ', '-'] ++ rest)
        from by simp [mkLine, sepRouter, List.append_assoc]]
      apply statusStringOf_mk ?_ hS1 hS2
      rw [show (R ++ (sepRouter ++ (D ++ ([' ', '+'] ++ (TZ ++ ([']', ' ', '"'] ++ req)))))) ++
          ['"'] =
        R ++ (sepRouter ++ (D ++ ([' ', '+'] ++ (TZ ++ ([']', ' ', '"'] ++ (req ++ ['"']))))))
        from by simp [List.append_assoc]]
      refine not_sub2_append (not_sub2_left hR3) ?_ ?_
      · refine not_sub2_append (by decide) ?_ ?_
        · refine not_sub2_append (not_sub2_left hD3) ?_ ?_
          · refine not_sub2_append (by decide) ?_ ?_
            · refine not_sub2_append (not_sub2_left hT1) ?_ ?_
              · refine not_sub2_append (by decide) ?_ ?_
                · refine not_sub2_append (not_sub2_left hq1) (by decide) ?_
                  rintro ⟨hg, _⟩
                  exact hq1 (List.mem_of_mem_getLast? hg)
                · rintro ⟨_, hh⟩
                  cases req with
                  | nil => simp at hh
                  | cons c t =>
                    rw [List.cons_append] at hh
                    simp only [List.head?] at hh
                    injection hh with hc
                    exact hq2 (by simp [hc])
              · rintro ⟨hg, _⟩
                exact hT1 (List.mem_of_mem_getLast? hg)
            · rintro ⟨hg, _⟩
              exact absurd hg (by decide)
          · rintro ⟨hg, _⟩
            exact hD3 (List.mem_of_mem_getLast? hg)
        · rintro ⟨hg, _⟩
          exact absurd hg (by decide)
      · rintro ⟨hg, _⟩
        exact hR3 (List.mem_of_mem_getLast? hg)
    unfold parse_log_line
    simp only [data_mk, h1, h2, h3, h4, Option.some_bind]
    simp [hD]
  · intro line h
    apply parse_none_of_none_date
    unfold dateStringOf
    rw [splitOnL_not_sub (by simp) (notMem_sub1 h)]
    rfl
  · intro line h
    apply parse_none_of_none_req
    rw [splitOnL_not_sub (by simp) (notMem_sub1 h)]
    rfl
  · intro line ds h1 h2
    exact parse_none_of_bad_date h1 h2

/-- Witness for **C1**: a concrete well-formed line parses to exactly the
expected entry, with every side-condition checked by evaluation. -/
theorem claim_C1_parse_line_witness :
    strptimeDMY ("10/Jan/2024:13:45:02" : String).data = some ⟨2024, 1, 10, 13, 45, 2⟩ ∧
    parse_log_line (String.mk (mkLine ("abcdefgh.b32.i2p" : String).data
        ("10/Jan/2024:13:45:02" : String).data ("0000" : String).data
        ("GET /index.html HTTP/1.1" : String).data ("200" : String).data [])) =
      some ⟨String.mk ("abcdefgh.b32.i2p" : String).data, ⟨2024, 1, 10, 13, 45, 2⟩,
        String.mk ("GET /index.html HTTP/1.1" : String).data, String.mk ("200" : String).data⟩ :=
  ⟨by decide,
    claim_C1_parse_line.1 ("abcdefgh.b32.i2p" : String).data ("10/Jan/2024:13:45:02" : String).data
      ("0000" : String).data ("GET /index.html HTTP/1.1" : String).data ("200" : String).data []
      ⟨2024, 1, 10, 13, 45, 2⟩ (by decide) (by decide) (by decide) (by decide) (by decide)
      (by decide) (by decide) (by decide) (by decide) (by decide) (by decide) (by decide)⟩

/-- **C2** counterexample: a line in which the separator `" -  -  ["` does
not occur (single spaces around the dashes) is nevertheless parsed — the
router field silently becomes the whole line. -/
theorem claim_C2_separator_counterexample :
    ¬ sepRouter <:+: c2line.data ∧
      parse_log_line c2line = some ⟨c2line, ⟨2024, 1, 10, 13, 45, 2⟩, "GET /x", "200"⟩ := by
  decide

/-- **C2** amended: if the separator `" -  -  ["` does not occur in the
line, the parse does not necessarily fail; the parser either returns no
entry or returns an entry whose router field is the entire line (the
portion before a missing separator is the whole string). -/
theorem claim_C2_separator_amended (line : String) (h : ¬ sepRouter <:+: line.data) :
    parse_log_line line = none ∨ ∃ e, parse_log_line line = some e ∧ e.router = line := by
  have h0 : (splitOnL sepRouter line.data)[0]? = some line.data := by
    rw [← List.get?_eq_getElem?, splitOnL_not_sub (by decide) h]; rfl
  unfold parse_log_line
  cases h1 : dateStringOf line.data with
  | none => exact Or.inl (by simp [h0, h1])
  | some ds =>
    cases h2 : (splitOnL ['"'] line.data)[1]? with
    | none => exact Or.inl (by simp [h0, h1, h2])
    | some rq =>
      cases h3 : statusStringOf line.data with
      | none => exact Or.inl (by simp [h0, h1, h2, h3])
      | some st =>
        cases h4 : strptimeDMY ds with
        | none => exact Or.inl (by simp [h0, h1, h2, h3, h4])
        | some d =>
          refine Or.inr ⟨⟨String.mk line.data, d, String.mk rq, String.mk st⟩, ?_, rfl⟩
          simp [h0, h1, h2, h3, h4]

/-- Witness for the amended **C2** at the spec's own malformed example. -/
theorem claim_C2_separator_amended_witness :
    ¬ sepRouter <:+: ("not a log line" : String).data ∧
      (parse_log_line "not a log line" = none ∨
        ∃ e, parse_log_line "not a log line" = some e ∧ e.router = "not a log line") :=
  ⟨by decide, claim_C2_separator_amended "not a log line" (by decide)⟩

/-! ### `firstDedup` and `counterOf` -/

theorem firstDedupAux_fuel {α : Type} [DecidableEq α] :
    ∀ f₁ f₂ (l : List α), l.length ≤ f₁ → l.length ≤ f₂ →
      firstDedupAux f₁ l = firstDedupAux f₂ l := by
  intro f₁
  induction f₁ with
  | zero =>
    intro f₂ l h1 _
    have hl : l = [] := List.length_eq_zero.mp (Nat.le_zero.mp h1)
    subst hl; cases f₂ <;> rfl
  | succ f ih =>
    intro f₂ l h1 h2
    cases l with
    | nil => cases f₂ <;> rfl
    | cons a t =>
      cases f₂ with
      | zero => simp at h2
      | succ f₂' =>
        simp only [firstDedupAux]
        congr 1
        apply ih
        · exact le_trans (List.length_filter_le _ t) (by simp only [List.length_cons] at h1; omega)
        · exact le_trans (List.length_filter_le _ t) (by simp only [List.length_cons] at h2; omega)

theorem firstDedup_cons {α : Type} [DecidableEq α] (a : α) (l : List α) :
    firstDedup (a :: l) = a :: firstDedup (l.filter fun b => b != a) := by
  unfold firstDedup
  simp only [List.length_cons, firstDedupAux]
  congr 1
  exact firstDedupAux_fuel _ _ _ (le_trans (List.length_filter_le _ l) (by omega)) le_rfl

theorem mem_firstDedup_aux {α : Type} [DecidableEq α] :
    ∀ (n : Nat) (l : List α), l.length ≤ n → ∀ x, (x ∈ firstDedup l ↔ x ∈ l) := by
  intro n
  induction n with
  | zero =>
    intro l h1 x
    have hl : l = [] := List.length_eq_zero.mp (Nat.le_zero.mp h1)
    subst hl; simp [firstDedup, firstDedupAux]
  | succ n ih =>
    intro l h1 x
    cases l with
    | nil => simp [firstDedup, firstDedupAux]
    | cons a t =>
      rw [firstDedup_cons]
      have hlen : (t.filter fun b => b != a).length ≤ n := by
        have := List.length_filter_le (fun b => b != a) t
        simp only [List.length_cons] at h1
        omega
      constructor
      · intro h
        rcases List.mem_cons.mp h with h | h
        · exact h ▸ List.mem_cons_self a t
        · exact List.mem_cons_of_mem a
            (List.mem_of_mem_filter ((ih _ hlen x).mp h))
      · intro h
        rcases List.mem_cons.mp h with h | h
        · exact h ▸ List.mem_cons_self a _
        · by_cases hxa : x = a
          · exact hxa ▸ List.mem_cons_self a _
          · exact List.mem_cons_of_mem a
              ((ih _ hlen x).mpr (List.mem_filter.mpr ⟨h, bne_iff_ne.mpr hxa⟩))

theorem mem_firstDedup {α : Type} [DecidableEq α] {x : α} {l : List α} :
    x ∈ firstDedup l ↔ x ∈ l :=
  mem_firstDedup_aux l.length l le_rfl x

theorem nodup_firstDedup_aux {α : Type} [DecidableEq α] :
    ∀ (n : Nat) (l : List α), l.length ≤ n → (firstDedup l).Nodup := by
  intro n
  induction n with
  | zero =>
    intro l h1
    have hl : l = [] := List.length_eq_zero.mp (Nat.le_zero.mp h1)
    subst hl; simp [firstDedup, firstDedupAux]
  | succ n ih =>
    intro l h1
    cases l with
    | nil => simp [firstDedup, firstDedupAux]
    | cons a t =>
      rw [firstDedup_cons]
      have hlen : (t.filter fun b => b != a).length ≤ n := by
        have := List.length_filter_le (fun b => b != a) t
        simp only [List.length_cons] at h1
        omega
      refine List.Pairwise.cons ?_ (ih _ hlen)
      intro x hx
      have hxf := mem_firstDedup.mp hx
      have := (List.mem_filter.mp hxf).2
      exact fun he => (bne_iff_ne.mp this) he.symm

theorem nodup_firstDedup {α : Type} [DecidableEq α] (l : List α) :
    (firstDedup l).Nodup :=
  nodup_firstDedup_aux l.length l le_rfl

theorem incKey_keys_of_mem {α : Type} [DecidableEq α] {acc : List (α × Nat)} {k : α}
    (h : k ∈ acc.map Prod.fst) : (incKey acc k).map Prod.fst = acc.map Prod.fst := by
  induction acc with
  | nil => simp at h
  | cons p rest ih =>
    obtain ⟨k', c⟩ := p
    rw [List.map_cons] at h
    simp only [incKey]
    by_cases hk : k' = k
    · rw [if_pos hk]
      simp
    · rw [if_neg hk]
      simp only [List.map_cons]
      congr 1
      apply ih
      rcases List.mem_cons.mp h with h | h
      · exact absurd h.symm hk
      · exact h

theorem incKey_of_not_mem {α : Type} [DecidableEq α] {acc : List (α × Nat)} {k : α}
    (h : k ∉ acc.map Prod.fst) : incKey acc k = acc ++ [(k, 1)] := by
  induction acc with
  | nil => rfl
  | cons p rest ih =>
    obtain ⟨k', c⟩ := p
    simp only [incKey]
    have hk : k' ≠ k := fun he => h (by simp [he])
    rw [if_neg hk, ih fun hm => h (by simp [hm])]
    simp

theorem incKey_map_shift {α : Type} [DecidableEq α] {acc : List (α × Nat)} {k : α}
    (hnd : (acc.map Prod.fst).Nodup) (hmem : k ∈ acc.map Prod.fst) (ks : List α) :
    (incKey acc k).map (fun p => (p.1, p.2 + ks.count p.1)) =
      acc.map fun p => (p.1, p.2 + (k :: ks).count p.1) := by
  induction acc with
  | nil => simp at hmem
  | cons p rest ih =>
    obtain ⟨k', c⟩ := p
    rw [List.map_cons] at hnd hmem
    simp only [incKey]
    by_cases hk : k' = k
    · subst hk
      rw [if_pos rfl]
      simp only [List.map_cons]
      congr 1
      · rw [List.count_cons_self]
        simp only [Prod.mk.injEq, true_and]
        omega
      · apply List.map_congr_left
        intro q hq
        have hq1 : q.1 ≠ k' := by
          have hhead := List.rel_of_pairwise_cons hnd (List.mem_map_of_mem Prod.fst hq)
          exact fun he => hhead he.symm
        rw [List.count_cons_of_ne hq1]
    · rw [if_neg hk]
      simp only [List.map_cons]
      congr 1
      · have : k' ≠ k := hk
        rw [List.count_cons_of_ne this]
      · apply ih (List.Nodup.of_cons hnd)
        rcases List.mem_cons.mp hmem with h | h
        · exact absurd h.symm hk
        · exact h

theorem foldl_incKey_eq {α : Type} [DecidableEq α] :
    ∀ (ks : List α) (acc : List (α × Nat)), (acc.map Prod.fst).Nodup →
      ks.foldl incKey acc =
        (acc.map fun p => (p.1, p.2 + ks.count p.1)) ++
          ((firstDedup (ks.filter fun j => decide (j ∉ acc.map Prod.fst))).map
            fun j => (j, ks.count j)) := by
  intro ks
  induction ks with
  | nil =>
    intro acc _
    simp [firstDedup, firstDedupAux]
  | cons k ks ih =>
    intro acc hnd
    rw [List.foldl_cons]
    by_cases hk : k ∈ acc.map Prod.fst
    · rw [ih (incKey acc k) (by rw [incKey_keys_of_mem hk]; exact hnd),
        incKey_keys_of_mem hk, incKey_map_shift hnd hk ks]
      congr 1
      rw [show ((k :: ks).filter fun j => decide (j ∉ acc.map Prod.fst)) =
          ks.filter fun j => decide (j ∉ acc.map Prod.fst) from by
        rw [List.filter_cons]
        simp [hk]]
      apply List.map_congr_left
      intro j hj
      have hjmem := mem_firstDedup.mp hj
      have hjk : j ≠ k := by
        have := (List.mem_filter.mp hjmem).2
        simp only [decide_eq_true_eq] at this
        exact fun he => this (he ▸ hk)
      rw [List.count_cons_of_ne hjk]
    · have hkeys : ((acc ++ [(k, 1)]).map Prod.fst).Nodup := by
        rw [List.map_append]
        simp only [List.map_cons, List.map_nil]
        rw [List.nodup_append]
        refine ⟨hnd, List.nodup_singleton k, ?_⟩
        intro a ha hb
        rcases List.mem_singleton.mp hb with rfl
        exact hk ha
      rw [ih (incKey acc k) (by rw [incKey_of_not_mem hk]; exact hkeys),
        incKey_of_not_mem hk, List.map_append, List.append_assoc]
      congr 1
      · apply List.map_congr_left
        intro p hp
        have hp1 : p.1 ≠ k := fun he => hk (he ▸ List.mem_map_of_mem Prod.fst hp)
        rw [List.count_cons_of_ne hp1]
      · rw [show ((k :: ks).filter fun j => decide (j ∉ acc.map Prod.fst)) =
            k :: ks.filter fun j => decide (j ∉ acc.map Prod.fst) from by
          rw [List.filter_cons]
          simp [hk]]
        rw [firstDedup_cons, List.map_cons]
        simp only [List.map_cons, List.map_nil, List.cons_append, List.nil_append]
        congr 1
        · rw [List.count_cons_self]
          simp only [Prod.mk.injEq, true_and]
          omega
        · rw [show ((ks.filter fun j => decide (j ∉ acc.map Prod.fst)).filter fun b => b != k) =
              ks.filter fun j => decide (j ∉ (acc ++ [(k, 1)]).map Prod.fst) from by
            rw [List.filter_filter]
            apply List.filter_congr
            intro j _
            by_cases h1 : j = k <;> by_cases h2 : j ∈ List.map Prod.fst acc <;>
              simp [h1, h2, List.map_append]]
          apply List.map_congr_left
          intro j hj
          have hjmem := mem_firstDedup.mp hj
          have hjk : j ≠ k := by
            have := (List.mem_filter.mp hjmem).2
            simp only [List.map_append, List.map_cons, List.map_nil, List.mem_append,
              List.mem_singleton, not_or, decide_eq_true_eq] at this
            exact this.2
          rw [List.count_cons_of_ne hjk]

/-- `counterOf ks` lists the distinct values of `ks` in first-occurrence
order, each with its multiplicity. -/
theorem counterOf_eq {α : Type} [DecidableEq α] (ks : List α) :
    counterOf ks = (firstDedup ks).map fun j => (j, ks.count j) := by
  unfold counterOf
  rw [foldl_incKey_eq ks [] (by simp)]
  simp

theorem counterOf_keys {α : Type} [DecidableEq α] (ks : List α) :
    (counterOf ks).map Prod.fst = firstDedup ks := by
  rw [counterOf_eq, List.map_map]
  have h : (Prod.fst ∘ fun j => (j, ks.count j)) = fun j : α => j := rfl
  rw [h, List.map_id']

theorem mem_counterOf {α : Type} [DecidableEq α] {ks : List α} {p : α × Nat} :
    p ∈ counterOf ks ↔ p.1 ∈ ks ∧ p.2 = ks.count p.1 := by
  rw [counterOf_eq]
  constructor
  · intro h
    obtain ⟨j, hj, he⟩ := List.mem_map.mp h
    cases he
    exact ⟨mem_firstDedup.mp hj, rfl⟩
  · rintro ⟨h1, h2⟩
    exact List.mem_map.mpr ⟨p.1, mem_firstDedup.mpr h1, by rw [← h2]⟩

/-! ### The stable count-descending sort (`most_common`) -/

theorem mem_insertByCount {α : Type} {x y : α × Nat} {l : List (α × Nat)} :
    y ∈ insertByCount x l ↔ y = x ∨ y ∈ l := by
  induction l with
  | nil => simp [insertByCount]
  | cons z zs ih =>
    simp only [insertByCount]
    by_cases h : z.2 ≤ x.2
    · rw [if_pos h]
      simp [List.mem_cons, or_comm, or_assoc, or_left_comm]
    · rw [if_neg h]
      simp only [List.mem_cons, ih]
      tauto

theorem perm_insertByCount {α : Type} (x : α × Nat) (l : List (α × Nat)) :
    List.Perm (insertByCount x l) (x :: l) := by
  induction l with
  | nil => exact List.Perm.refl _
  | cons z zs ih =>
    simp only [insertByCount]
    by_cases h : z.2 ≤ x.2
    · rw [if_pos h]
    · rw [if_neg h]
      exact (ih.cons z).trans (List.Perm.swap x z zs)

theorem perm_sortByCountDesc {α : Type} (l : List (α × Nat)) :
    List.Perm (sortByCountDesc l) l := by
  induction l with
  | nil => exact List.Perm.refl _
  | cons x xs ih => exact (perm_insertByCount x (sortByCountDesc xs)).trans (ih.cons x)

theorem pairwise_insertByCount {α : Type} {x : α × Nat} {l : List (α × Nat)}
    (h : List.Pairwise (fun p q => q.2 ≤ p.2) l) :
    List.Pairwise (fun p q => q.2 ≤ p.2) (insertByCount x l) := by
  induction l with
  | nil => simp [insertByCount]
  | cons y ys ih =>
    rw [List.pairwise_cons] at h
    simp only [insertByCount]
    by_cases hyx : y.2 ≤ x.2
    · rw [if_pos hyx]
      refine List.Pairwise.cons ?_ (List.Pairwise.cons h.1 h.2)
      intro z hz
      rcases List.mem_cons.mp hz with rfl | hz
      · exact hyx
      · exact le_trans (h.1 z hz) hyx
    · rw [if_neg hyx]
      refine List.Pairwise.cons ?_ (ih h.2)
      intro z hz
      rcases mem_insertByCount.mp hz with rfl | hz
      · omega
      · exact h.1 z hz

theorem sorted_sortByCountDesc {α : Type} (l : List (α × Nat)) :
    List.Pairwise (fun p q => q.2 ≤ p.2) (sortByCountDesc l) := by
  induction l with
  | nil => simp [sortByCountDesc]
  | cons x xs ih => exact pairwise_insertByCount ih

theorem filter_insertByCount {α : Type} (x : α × Nat) (l : List (α × Nat)) (c : Nat) :
    (insertByCount x l).filter (fun p => p.2 == c) =
      if x.2 = c then x :: l.filter (fun p => p.2 == c)
      else l.filter (fun p => p.2 == c) := by
  induction l with
  | nil =>
    simp only [insertByCount]
    by_cases hx : x.2 = c
    · simp [hx, List.filter]
    · have hb : (x.2 == c) = false := beq_eq_false_iff_ne.mpr hx
      simp [hx, List.filter, hb]
  | cons y ys ih =>
    simp only [insertByCount]
    by_cases hyx : y.2 ≤ x.2
    · rw [if_pos hyx]
      by_cases hx : x.2 = c <;> simp [hx, List.filter_cons]
    · rw [if_neg hyx]
      rw [List.filter_cons, ih]
      by_cases hx : x.2 = c
      · have hy : (y.2 == c) = false := by
          simp only [beq_eq_false_iff_ne, ne_eq]
          omega
        rw [if_pos hx]
        simp [List.filter_cons, hy, hx]
      · rw [if_neg hx]
        simp [List.filter_cons, hx]

theorem filter_sortByCountDesc {α : Type} (l : List (α × Nat)) (c : Nat) :
    (sortByCountDesc l).filter (fun p => p.2 == c) = l.filter (fun p => p.2 == c) := by
  induction l with
  | nil => rfl
  | cons x xs ih =>
    simp only [sortByCountDesc]
    rw [filter_insertByCount, List.filter_cons]
    by_cases hx : x.2 = c <;> simp [hx, ih]

theorem pairwise_insertByCount_of {α : Type} {R : α × Nat → α × Nat → Prop}
    {x : α × Nat} {l : List (α × Nat)} (hl : List.Pairwise R l) (hall : ∀ z ∈ l, R x z)
    (hgt : ∀ y ∈ l, ¬ y.2 ≤ x.2 → R y x) : List.Pairwise R (insertByCount x l) := by
  induction l with
  | nil => simp [insertByCount]
  | cons y ys ih =>
    rw [List.pairwise_cons] at hl
    simp only [insertByCount]
    by_cases hyx : y.2 ≤ x.2
    · rw [if_pos hyx]
      refine List.Pairwise.cons ?_ (List.Pairwise.cons hl.1 hl.2)
      intro z hz
      exact hall z hz
    · rw [if_neg hyx]
      refine List.Pairwise.cons ?_ (ih hl.2 (fun z hz => hall z (List.mem_cons_of_mem y hz))
        (fun z hz hzx => hgt z (List.mem_cons_of_mem y hz) hzx))
      intro z hz
      rcases mem_insertByCount.mp hz with rfl | hz
      · exact hgt y (List.mem_cons_self y ys) hyx
      · exact hl.1 z hz

theorem tie_pairwise_sortByCountDesc {α : Type} {R : α × Nat → α × Nat → Prop}
    {l : List (α × Nat)} (h : List.Pairwise R l) :
    List.Pairwise (fun p q => p.2 ≠ q.2 ∨ R p q) (sortByCountDesc l) := by
  induction l with
  | nil => simp [sortByCountDesc]
  | cons x xs ih =>
    rw [List.pairwise_cons] at h
    simp only [sortByCountDesc]
    apply pairwise_insertByCount_of (ih h.2)
    · intro z hz
      exact Or.inr (h.1 z ((perm_sortByCountDesc xs).subset hz))
    · intro y _ hyx
      exact Or.inl (by omega)

/-! ### The ascending key sort (`sorted(d.items())`) -/

theorem lexLt_iff_lex : ∀ (as bs : List Char), lexLt as bs = true ↔ List.Lex (· < ·) as bs := by
  intro as
  induction as with
  | nil =>
    intro bs
    cases bs with
    | nil =>
      constructor
      · intro h; simp [lexLt] at h
      · intro h; cases h
    | cons b bs =>
      constructor
      · intro _; exact List.Lex.nil
      · intro _; rfl
  | cons a as ih =>
    intro bs
    cases bs with
    | nil =>
      constructor
      · intro h; simp [lexLt] at h
      · intro h; cases h
    | cons b bs =>
      simp only [lexLt]
      by_cases hab : a < b
      · rw [if_pos hab]
        constructor
        · intro _; exact List.Lex.rel hab
        · intro _; rfl
      · rw [if_neg hab]
        by_cases hba : b < a
        · rw [if_pos hba]
          constructor
          · intro h; simp at h
          · intro h
            cases h with
            | rel h => exact absurd h hab
            | cons h => exact absurd hba (lt_irrefl a)
        · rw [if_neg hba]
          have hab2 : a = b := le_antisymm (not_lt.mp hba) (not_lt.mp hab)
          subst hab2
          rw [ih bs]
          constructor
          · exact List.Lex.cons
          · intro h
            cases h with
            | rel h => exact absurd h hab
            | cons h => exact h

theorem lexLt_iff_string {a b : String} : lexLt a.data b.data = true ↔ a < b := by
  rw [String.lt_iff_toList_lt]
  exact lexLt_iff_lex a.data b.data

theorem mem_insertByKey {α : Type} {x y : String × α} {l : List (String × α)} :
    y ∈ insertByKey x l ↔ y = x ∨ y ∈ l := by
  induction l with
  | nil => simp [insertByKey]
  | cons z zs ih =>
    simp only [insertByKey]
    by_cases h : lexLt x.1.data z.1.data
    · rw [if_pos h]
      simp [List.mem_cons, or_comm, or_assoc, or_left_comm]
    · rw [if_neg h]
      simp only [List.mem_cons, ih]
      tauto

theorem perm_insertByKey {α : Type} (x : String × α) (l : List (String × α)) :
    List.Perm (insertByKey x l) (x :: l) := by
  induction l with
  | nil => exact List.Perm.refl _
  | cons z zs ih =>
    simp only [insertByKey]
    by_cases h : lexLt x.1.data z.1.data
    · rw [if_pos h]
    · rw [if_neg h]
      exact (ih.cons z).trans (List.Perm.swap x z zs)

theorem perm_sortItemsAsc {α : Type} (l : List (String × α)) :
    List.Perm (sortItemsAsc l) l := by
  induction l with
  | nil => exact List.Perm.refl _
  | cons x xs ih => exact (perm_insertByKey x (sortItemsAsc xs)).trans (ih.cons x)

theorem pairwise_insertByKey {α : Type} {x : String × α} {l : List (String × α)}
    (h : List.Pairwise (fun p q => p.1 < q.1) l) (hx : ∀ q ∈ l, x.1 ≠ q.1) :
    List.Pairwise (fun p q => p.1 < q.1) (insertByKey x l) := by
  induction l with
  | nil => simp [insertByKey]
  | cons y ys ih =>
    rw [List.pairwise_cons] at h
    simp only [insertByKey]
    by_cases hk : lexLt x.1.data y.1.data
    · rw [if_pos hk]
      have hxy : x.1 < y.1 := lexLt_iff_string.mp hk
      refine List.Pairwise.cons ?_ (List.Pairwise.cons h.1 h.2)
      intro z hz
      rcases List.mem_cons.mp hz with rfl | hz
      · exact hxy
      · exact lt_trans hxy (h.1 z hz)
    · rw [if_neg hk]
      have hyx : y.1 < x.1 := by
        rcases lt_trichotomy x.1 y.1 with h' | h' | h'
        · exact absurd (lexLt_iff_string.mpr h') hk
        · exact absurd h' (hx y (List.mem_cons_self y ys))
        · exact h'
      refine List.Pairwise.cons ?_ (ih h.2 fun q hq => hx q (List.mem_cons_of_mem y hq))
      intro z hz
      rcases mem_insertByKey.mp hz with rfl | hz
      · exact hyx
      · exact h.1 z hz

theorem sorted_sortItemsAsc {α : Type} {l : List (String × α)}
    (h : (l.map Prod.fst).Nodup) :
    List.Pairwise (fun p q => p.1 < q.1) (sortItemsAsc l) := by
  induction l with
  | nil => simp [sortItemsAsc]
  | cons x xs ih =>
    rw [List.map_cons, List.nodup_cons] at h
    simp only [sortItemsAsc]
    apply pairwise_insertByKey (ih h.2)
    intro q hq
    intro he
    exact h.1 (he ▸ List.mem_map_of_mem Prod.fst ((perm_sortItemsAsc xs).subset hq))


/-! ### First-occurrence indices -/

theorem indexOf_filter_lt {α : Type} [DecidableEq α] {p : α → Bool} :
    ∀ {l : List α} {a b : α}, a ∈ l.filter p → b ∈ l.filter p →
      (l.filter p).indexOf a < (l.filter p).indexOf b → l.indexOf a < l.indexOf b := by
  intro l
  induction l with
  | nil => intro a b ha _ _; simp at ha
  | cons y t ih =>
    intro a b ha hb hlt
    by_cases hp : p y
    · rw [List.filter_cons_of_pos hp] at ha hb hlt
      by_cases hay : a = y
      · subst hay
        have hba : b ≠ a := by
          intro he
          subst he
          exact lt_irrefl _ hlt
        rw [List.indexOf_cons_self, List.indexOf_cons_ne t fun he => hba he.symm]
        omega
      · have hbney : b ≠ y := by
          intro he
          subst he
          rw [List.indexOf_cons_self] at hlt
          omega
        rw [List.indexOf_cons_ne _ fun he => hay he.symm,
          List.indexOf_cons_ne _ fun he => hbney he.symm] at hlt
        rw [List.indexOf_cons_ne t fun he => hay he.symm,
          List.indexOf_cons_ne t fun he => hbney he.symm]
        have ha' : a ∈ t.filter p := by
          rcases List.mem_cons.mp ha with h | h
          · exact absurd h hay
          · exact h
        have hb' : b ∈ t.filter p := by
          rcases List.mem_cons.mp hb with h | h
          · exact absurd h hbney
          · exact h
        have := ih ha' hb' (by omega)
        omega
    · rw [List.filter_cons_of_neg hp] at ha hb hlt
      have hay : a ≠ y := by
        intro he
        exact hp (he ▸ (List.mem_filter.mp ha).2)
      have hby : b ≠ y := by
        intro he
        exact hp (he ▸ (List.mem_filter.mp hb).2)
      rw [List.indexOf_cons_ne t fun he => hay he.symm,
        List.indexOf_cons_ne t fun he => hby he.symm]
      have := ih ha hb hlt
      omega

theorem pairwise_indexOf_firstDedup_aux {α : Type} [DecidableEq α] :
    ∀ (n : Nat) (l : List α), l.length ≤ n →
      List.Pairwise (fun a b => l.indexOf a < l.indexOf b) (firstDedup l) := by
  intro n
  induction n with
  | zero =>
    intro l h1
    have hl : l = [] := List.length_eq_zero.mp (Nat.le_zero.mp h1)
    subst hl
    simp [firstDedup, firstDedupAux]
  | succ n ih =>
    intro l h1
    cases l with
    | nil => simp [firstDedup, firstDedupAux]
    | cons a t =>
      rw [firstDedup_cons]
      have hlen : (t.filter fun b => b != a).length ≤ n := by
        have := List.length_filter_le (fun b => b != a) t
        simp only [List.length_cons] at h1
        omega
      refine List.Pairwise.cons ?_ ?_
      · intro x hx
        have hxmem := mem_firstDedup.mp hx
        have hxa : x ≠ a := by
          have := (List.mem_filter.mp hxmem).2
          exact bne_iff_ne.mp this
        rw [List.indexOf_cons_self, List.indexOf_cons_ne t fun he => hxa he.symm]
        omega
      · have hpw := ih _ hlen
        refine hpw.imp_of_mem ?_
        intro x y hx hy hxy
        have hx' := mem_firstDedup.mp hx
        have hy' := mem_firstDedup.mp hy
        have hxa : x ≠ a := bne_iff_ne.mp (List.mem_filter.mp hx').2
        have hya : y ≠ a := bne_iff_ne.mp (List.mem_filter.mp hy').2
        have := indexOf_filter_lt hx' hy' hxy
        rw [List.indexOf_cons_ne t fun he => hxa he.symm,
          List.indexOf_cons_ne t fun he => hya he.symm]
        omega

theorem pairwise_indexOf_firstDedup {α : Type} [DecidableEq α] (l : List α) :
    List.Pairwise (fun a b => l.indexOf a < l.indexOf b) (firstDedup l) :=
  pairwise_indexOf_firstDedup_aux l.length l le_rfl

theorem count_map_eq_length_filter {α β : Type} [DecidableEq α] [DecidableEq β]
    (f : α → β) (l : List α) (b : β) :
    (l.map f).count b = (l.filter fun a => f a == b).length := by
  induction l with
  | nil => rfl
  | cons a t ih =>
    by_cases h : f a = b
    · simp [List.count_cons, List.filter_cons, h, ih]
    · simp [List.count_cons, List.filter_cons, h, Ne.symm h, ih]

theorem count_routerKeys (entries : List LogEntry) {r : String} (hr : r ≠ "127.0.0.1") :
    (routerKeys entries).count r = (entries.filter fun e => e.router == r).length := by
  unfold routerKeys
  rw [count_map_eq_length_filter, List.filter_filter]
  congr 1
  apply List.filter_congr
  intro e _
  by_cases h : e.router = r
  · simp [h, bne_iff_ne, hr]
  · simp [h]

theorem mem_routerKeys_ne {entries : List LogEntry} {r : String}
    (h : r ∈ routerKeys entries) : r ≠ "127.0.0.1" := by
  unfold routerKeys at h
  obtain ⟨e, he, rfl⟩ := List.mem_map.mp h
  exact bne_iff_ne.mp (List.mem_filter.mp he).2

/-- **C3**: the top-routers ranking counts entries per distinct router,
excludes the loopback token `127.0.0.1`, returns at most 50 results sorted
by count descending, every omitted router has a count no larger than any
returned one, count ties are ordered by the router's first-occurrence
position in the entry sequence, and on router counts
`{A: 5, 127.0.0.1: 100, B: 3}` the result is exactly `A` before `B`. -/
theorem claim_C3_top_routers (entries : List LogEntry) :
    (∀ p ∈ top_50_routers entries, p.1 ≠ "127.0.0.1") ∧
    (∀ p ∈ top_50_routers entries,
      p.2 = (entries.filter fun e => e.router == p.1).length) ∧
    List.Pairwise (fun p q => q.2 ≤ p.2) (top_50_routers entries) ∧
    (top_50_routers entries).length = min 50 (counterOf (routerKeys entries)).length ∧
    (∀ r, r ∉ (top_50_routers entries).map Prod.fst → r ≠ "127.0.0.1" →
      ∀ p ∈ top_50_routers entries,
        (entries.filter fun e => e.router == r).length ≤ p.2) ∧
    List.Pairwise (fun p q => p.2 ≠ q.2 ∨
      (routerKeys entries).indexOf p.1 < (routerKeys entries).indexOf q.1)
      (top_50_routers entries) ∧
    (top_50_routers c3entries).map Prod.fst = ["A", "B"] := by
  have hmemres : ∀ p ∈ top_50_routers entries, p ∈ counterOf (routerKeys entries) := by
    intro p hp
    exact (perm_sortByCountDesc _).subset ((List.take_sublist 50 _).subset hp)
  refine ⟨?_, ?_, ?_, ?_, ?_, ?_, by decide⟩
  · intro p hp
    exact mem_routerKeys_ne (mem_counterOf.mp (hmemres p hp)).1
  · intro p hp
    have h := mem_counterOf.mp (hmemres p hp)
    rw [h.2, count_routerKeys entries (mem_routerKeys_ne h.1)]
  · exact (sorted_sortByCountDesc _).sublist (List.take_sublist 50 _)
  · unfold top_50_routers
    rw [List.length_take, (perm_sortByCountDesc _).length_eq]
  · intro r hr hrloop p hp
    by_cases hrk : r ∈ routerKeys entries
    · have hmem : (r, (routerKeys entries).count r) ∈ counterOf (routerKeys entries) :=
        mem_counterOf.mpr ⟨hrk, rfl⟩
      have hsorted := (perm_sortByCountDesc (counterOf (routerKeys entries))).symm.subset hmem
      have hsplit := List.take_append_drop 50 (sortByCountDesc (counterOf (routerKeys entries)))
      have hpw0 := sorted_sortByCountDesc (counterOf (routerKeys entries))
      rw [← hsplit] at hsorted hpw0
      have hpw := List.pairwise_append.mp hpw0
      rcases List.mem_append.mp hsorted with hmem2 | hmem2
      · exact absurd (List.mem_map_of_mem Prod.fst hmem2) hr
      · have hle := hpw.2.2 p hp _ hmem2
        rw [← count_routerKeys entries hrloop]
        exact hle
    · rw [← count_routerKeys entries hrloop, List.count_eq_zero.mpr hrk]
      omega
  · have hS : List.Pairwise (fun p q : String × Nat =>
        (routerKeys entries).indexOf p.1 < (routerKeys entries).indexOf q.1)
        (counterOf (routerKeys entries)) := by
      rw [counterOf_eq, List.pairwise_map]
      exact pairwise_indexOf_firstDedup (routerKeys entries)
    exact (tie_pairwise_sortByCountDesc hS).sublist (List.take_sublist 50 _)

/-- Witness for **C3**: on the concrete entries, `("A", 5)` is in the result
and its count equals the number of entries with router `A`. -/
theorem claim_C3_top_routers_witness :
    ("A", 5) ∈ top_50_routers c3entries ∧
      (("A", 5) : String × Nat).2 = (c3entries.filter fun e => e.router == "A").length :=
  ⟨by decide, (claim_C3_top_routers c3entries).2.1 ("A", 5) (by decide)⟩

theorem mem_pageKeys_ok {entries : List LogEntry} {r : String} (h : r ∈ pageKeys entries) :
    endsWithPIC r = false ∧ r ∉ ignored_requests := by
  unfold pageKeys at h
  obtain ⟨e, he, rfl⟩ := List.mem_map.mp h
  have := (List.mem_filter.mp he).2
  simp only [Bool.not_eq_eq_eq_not, Bool.not_true, Bool.or_eq_false_iff,
    decide_eq_false_iff_not] at this
  exact this

theorem count_pageKeys (entries : List LogEntry) {r : String}
    (h1 : endsWithPIC r = false) (h2 : r ∉ ignored_requests) :
    (pageKeys entries).count r = (entries.filter fun e => e.request == r).length := by
  unfold pageKeys
  rw [count_map_eq_length_filter, List.filter_filter]
  congr 1
  apply List.filter_congr
  intro e _
  by_cases h : e.request = r
  · simp [h, h1, h2]
  · simp [h]

/-- **C4**: the top-pages ranking counts entries per exact request string,
excludes requests ending in `.png`/`.ico`/`.css` and the four literal
ignored values, returns at most 50 results sorted by count descending,
every omitted request has a count no larger than any returned one, count
ties are ordered by first occurrence, `GET /favicon.png` never appears
(here even at frequency 12), and `GET /a.html` with count 10 outranks
`GET /b.html` with count 5. -/
theorem claim_C4_top_pages (entries : List LogEntry) :
    (∀ p ∈ top_50_pages entries, endsWithPIC p.1 = false ∧ p.1 ∉ ignored_requests) ∧
    (∀ p ∈ top_50_pages entries,
      p.2 = (entries.filter fun e => e.request == p.1).length) ∧
    List.Pairwise (fun p q => q.2 ≤ p.2) (top_50_pages entries) ∧
    (top_50_pages entries).length = min 50 (counterOf (pageKeys entries)).length ∧
    (∀ r, r ∉ (top_50_pages entries).map Prod.fst → endsWithPIC r = false →
      r ∉ ignored_requests → ∀ p ∈ top_50_pages entries,
        (entries.filter fun e => e.request == r).length ≤ p.2) ∧
    List.Pairwise (fun p q => p.2 ≠ q.2 ∨
      (pageKeys entries).indexOf p.1 < (pageKeys entries).indexOf q.1)
      (top_50_pages entries) ∧
    ("GET /favicon.png" ∉ (top_50_pages c4entries).map Prod.fst ∧
      (top_50_pages c4entries).map Prod.fst = ["GET /a.html", "GET /b.html"]) := by
  have hmemres : ∀ p ∈ top_50_pages entries, p ∈ counterOf (pageKeys entries) := by
    intro p hp
    exact (perm_sortByCountDesc _).subset ((List.take_sublist 50 _).subset hp)
  refine ⟨?_, ?_, ?_, ?_, ?_, ?_, by decide⟩
  · intro p hp
    exact mem_pageKeys_ok (mem_counterOf.mp (hmemres p hp)).1
  · intro p hp
    have h := mem_counterOf.mp (hmemres p hp)
    have hok := mem_pageKeys_ok h.1
    rw [h.2, count_pageKeys entries hok.1 hok.2]
  · exact (sorted_sortByCountDesc _).sublist (List.take_sublist 50 _)
  · unfold top_50_pages
    rw [List.length_take, (perm_sortByCountDesc _).length_eq]
  · intro r hr hr1 hr2 p hp
    by_cases hrk : r ∈ pageKeys entries
    · have hmem : (r, (pageKeys entries).count r) ∈ counterOf (pageKeys entries) :=
        mem_counterOf.mpr ⟨hrk, rfl⟩
      have hsorted := (perm_sortByCountDesc (counterOf (pageKeys entries))).symm.subset hmem
      have hsplit := List.take_append_drop 50 (sortByCountDesc (counterOf (pageKeys entries)))
      have hpw0 := sorted_sortByCountDesc (counterOf (pageKeys entries))
      rw [← hsplit] at hsorted hpw0
      have hpw := List.pairwise_append.mp hpw0
      rcases List.mem_append.mp hsorted with hmem2 | hmem2
      · exact absurd (List.mem_map_of_mem Prod.fst hmem2) hr
      · have hle := hpw.2.2 p hp _ hmem2
        rw [← count_pageKeys entries hr1 hr2]
        exact hle
    · rw [← count_pageKeys entries hr1 hr2, List.count_eq_zero.mpr hrk]
      omega
  · have hS : List.Pairwise (fun p q : String × Nat =>
        (pageKeys entries).indexOf p.1 < (pageKeys entries).indexOf q.1)
        (counterOf (pageKeys entries)) := by
      rw [counterOf_eq, List.pairwise_map]
      exact pairwise_indexOf_firstDedup (pageKeys entries)
    exact (tie_pairwise_sortByCountDesc hS).sublist (List.take_sublist 50 _)

/-- Witness for **C4**: on the concrete entries, `("GET /a.html", 10)` is in
the result and its count equals the number of matching entries. -/
theorem claim_C4_top_pages_witness :
    ("GET /a.html", 10) ∈ top_50_pages c4entries ∧
      (("GET /a.html", 10) : String × Nat).2 =
        (c4entries.filter fun e => e.request == "GET /a.html").length :=
  ⟨by decide, (claim_C4_top_pages c4entries).2.1 ("GET /a.html", 10) (by decide)⟩

theorem count_monthKeys (entries : List LogEntry) (now : DateTime) (m : String) :
    (monthKeys entries now).count m =
      (entries.filter fun e => (ymKey e.date == m) &&
        decide (fifty_six_months_ago now < e.date.toSecs)).length := by
  unfold monthKeys
  rw [count_map_eq_length_filter, List.filter_filter]

/-- **C5**: the monthly rollup counts, per `YYYY-MM` key, exactly the entries
whose timestamp is strictly after `now - 56×30 days`; the result is sorted
strictly ascending by month key; a single entry at or before the cutoff
contributes nothing while one after it contributes one; and concretely one
second before the cutoff of 2024-06-01 (= 2019-10-26 00:00:00) is excluded
while one second after it is counted in "2019-10". -/
theorem claim_C5_monthly_rollup (entries : List LogEntry) (now : DateTime) :
    (∀ m c, (m, c) ∈ monthly_requests entries now ↔
      0 < c ∧ c = (entries.filter fun e => (ymKey e.date == m) &&
        decide (fifty_six_months_ago now < e.date.toSecs)).length) ∧
    List.Pairwise (fun p q => p.1 < q.1) (monthly_requests entries now) ∧
    (∀ (e : LogEntry) (n : DateTime), e.date.toSecs ≤ fifty_six_months_ago n →
      monthly_requests [e] n = []) ∧
    (∀ (e : LogEntry) (n : DateTime), fifty_six_months_ago n < e.date.toSecs →
      monthly_requests [e] n = [(ymKey e.date, 1)]) ∧
    (c5before.date.toSecs = fifty_six_months_ago c5now - 1 ∧
      monthly_requests [c5before] c5now = [] ∧
      c5after.date.toSecs = fifty_six_months_ago c5now + 1 ∧
      monthly_requests [c5after] c5now = [("2019-10", 1)]) := by
  refine ⟨?_, ?_, ?_, ?_, by decide⟩
  · intro m c
    unfold monthly_requests
    rw [(perm_sortItemsAsc (counterOf (monthKeys entries now))).mem_iff, mem_counterOf]
    constructor
    · rintro ⟨h1, h2⟩
      have h1' : m ∈ monthKeys entries now := h1
      have h2' : c = (monthKeys entries now).count m := h2
      refine ⟨?_, by rw [h2', count_monthKeys]⟩
      rw [h2']
      exact List.count_pos_iff.mpr h1'
    · rintro ⟨h1, h2⟩
      rw [← count_monthKeys entries now m] at h2
      exact ⟨List.count_pos_iff.mp (h2 ▸ h1), h2⟩
  · have hnd : ((counterOf (monthKeys entries now)).map Prod.fst).Nodup := by
      rw [counterOf_keys]
      exact nodup_firstDedup _
    exact sorted_sortItemsAsc hnd
  · intro e n h
    have hdec : decide (fifty_six_months_ago n < e.date.toSecs) = false :=
      decide_eq_false (not_lt.mpr h)
    simp [monthly_requests, monthKeys, counterOf, sortItemsAsc, List.filter, hdec]
  · intro e n h
    have hdec : decide (fifty_six_months_ago n < e.date.toSecs) = true := decide_eq_true h
    simp [monthly_requests, monthKeys, counterOf, sortItemsAsc, insertByKey, incKey,
      List.filter, hdec]

/-- Witness for **C5**: the post-cutoff singleton instance, with the
hypothesis checked by evaluation. -/
theorem claim_C5_monthly_rollup_witness :
    fifty_six_months_ago c5now < c5after.date.toSecs ∧
      monthly_requests [c5after] c5now = [(ymKey c5after.date, 1)] :=
  ⟨by decide, (claim_C5_monthly_rollup [] c5now).2.2.2.1 c5after c5now (by decide)⟩

/-- **C6**: the average monthly load times the number of rollup months
equals the sum of the rollup counts (so it is the sum divided by the number
of distinct months whenever any month qualifies), it is 0 — not a division
fault — when no month qualifies, and `{2024-01: 10, 2024-02: 20}` averages
to exactly 15. -/
theorem claim_C6_average (entries : List LogEntry) (now : DateTime) :
    (average_page_loads_per_month entries now * ((monthly_requests entries now).length : ℚ) =
      (((monthly_requests entries now).map fun p => p.2).sum : ℚ)) ∧
    (average_page_loads_per_month entries now =
      if (monthly_requests entries now).length = 0 then 0
      else (((monthly_requests entries now).map fun p => p.2).sum : ℚ) /
        ((monthly_requests entries now).length : ℚ)) ∧
    (monthly_requests c6entries c5now = [("2024-01", 10), ("2024-02", 20)] ∧
      average_page_loads_per_month c6entries c5now = 15) ∧
    (monthly_requests [c5before] c5now = [] ∧
      average_page_loads_per_month [c5before] c5now = 0) := by
  have hlen : (monthly_requests entries now).length =
      (counterOf (monthKeys entries now)).length :=
    (perm_sortItemsAsc _).length_eq
  have hsum : ((monthly_requests entries now).map fun p => (p.2 : ℚ)).sum =
      ((counterOf (monthKeys entries now)).map fun p => (p.2 : ℚ)).sum :=
    ((perm_sortItemsAsc _).map _).sum_eq
  refine ⟨?_, ?_, ⟨by decide, ?_⟩, ⟨by decide, ?_⟩⟩
  case refine_3 =>
    unfold average_page_loads_per_month
    rw [show counterOf (monthKeys c6entries c5now) = [("2024-01", 10), ("2024-02", 20)]
      from by decide]
    norm_num
  case refine_4 =>
    unfold average_page_loads_per_month
    rw [show counterOf (monthKeys [c5before] c5now) = [] from by decide]
    norm_num
  · unfold average_page_loads_per_month
    rw [hlen, hsum]
    by_cases h : 0 < (counterOf (monthKeys entries now)).length
    · rw [if_pos h]
      exact div_mul_cancel₀ _ (Nat.cast_ne_zero.mpr (by omega))
    · rw [if_neg h]
      have h0 : (counterOf (monthKeys entries now)).length = 0 := by omega
      have hmc : counterOf (monthKeys entries now) = [] := List.length_eq_zero.mp h0
      rw [hmc]
      simp
  · unfold average_page_loads_per_month
    rw [hlen, hsum]
    by_cases h : 0 < (counterOf (monthKeys entries now)).length
    · rw [if_pos h, if_neg (by omega)]
    · rw [if_neg h, if_pos (by omega)]

theorem filter_map_eq {α β : Type} (f : α → β) (p : β → Bool) (l : List α) :
    (l.map f).filter p = (l.filter fun a => p (f a)).map f := by
  induction l with
  | nil => rfl
  | cons a t ih =>
    rw [List.map_cons, List.filter_cons, List.filter_cons]
    by_cases h : p (f a)
    · simp [h, ih]
    · simp [h, ih]

/-- **C7**: on an empty entry sequence the most-popular-hour is `none`; on a
nonempty one it is an hour occurring in the entries whose frequency is
maximal, and among equally frequent hours it is the first-encountered one
(smallest first-occurrence index in the hour sequence). -/
theorem claim_C7_popular_hour (entries : List LogEntry) :
    (entries = [] → most_popular_time entries = none) ∧
    (entries ≠ [] → ∃ h, most_popular_time entries = some h ∧
      h ∈ entries.map (fun e => e.date.hour) ∧
      (∀ h' ∈ entries.map fun e => e.date.hour,
        (entries.map fun e => e.date.hour).count h' ≤
          (entries.map fun e => e.date.hour).count h) ∧
      (∀ h' ∈ entries.map fun e => e.date.hour,
        (entries.map fun e => e.date.hour).count h' =
            (entries.map fun e => e.date.hour).count h →
          (entries.map fun e => e.date.hour).indexOf h ≤
            (entries.map fun e => e.date.hour).indexOf h')) := by
  constructor
  · intro h
    subst h
    rfl
  · intro hne
    have hrsne : entries.map (fun e => e.date.hour) ≠ [] := by
      cases entries with
      | nil => exact absurd rfl hne
      | cons a t => simp
    have hsortedne : sortByCountDesc (counterOf (entries.map fun e => e.date.hour)) ≠ [] := by
      intro h0
      have hlen := (perm_sortByCountDesc (counterOf (entries.map fun e => e.date.hour))).length_eq
      rw [h0] at hlen
      have : counterOf (entries.map fun e => e.date.hour) = [] :=
        List.length_eq_zero.mp hlen.symm
      rw [counterOf_eq] at this
      cases he : entries.map (fun e => e.date.hour) with
      | nil => exact hrsne he
      | cons a t =>
        rw [he, firstDedup_cons] at this
        simp at this
    obtain ⟨p0, tail, hsorted⟩ : ∃ p0 tail,
        sortByCountDesc (counterOf (entries.map fun e => e.date.hour)) = p0 :: tail := by
      cases hs : sortByCountDesc (counterOf (entries.map fun e => e.date.hour)) with
      | nil => exact absurd hs hsortedne
      | cons p t => exact ⟨p, t, rfl⟩
    obtain ⟨h, c⟩ := p0
    have hmem : (h, c) ∈ counterOf (entries.map fun e => e.date.hour) :=
      (perm_sortByCountDesc _).subset (hsorted ▸ List.mem_cons_self _ _)
    have hc : c = (entries.map fun e => e.date.hour).count h := (mem_counterOf.mp hmem).2
    refine ⟨h, ?_, (mem_counterOf.mp hmem).1, ?_, ?_⟩
    · unfold most_popular_time
      rw [if_neg (by simpa [List.isEmpty_iff] using hrsne), hsorted]
      rfl
    · intro h' hmem'
      have hmem2 : (h', (entries.map fun e => e.date.hour).count h') ∈
          sortByCountDesc (counterOf (entries.map fun e => e.date.hour)) :=
        (perm_sortByCountDesc _).symm.subset (mem_counterOf.mpr ⟨hmem', rfl⟩)
      rw [hsorted] at hmem2
      rcases List.mem_cons.mp hmem2 with he | he
      · have := congrArg Prod.snd he
        simp only at this
        omega
      · have hpw := sorted_sortByCountDesc (counterOf (entries.map fun e => e.date.hour))
        rw [hsorted] at hpw
        have hle := List.rel_of_pairwise_cons hpw he
        simp only at hle
        omega
    · intro h' hmem' htie
      have hstab := filter_sortByCountDesc (counterOf (entries.map fun e => e.date.hour)) c
      rw [hsorted, List.filter_cons_of_pos (by simp), counterOf_eq, filter_map_eq] at hstab
      rcases hfd : (firstDedup (entries.map fun e => e.date.hour)).filter
          (fun k => (entries.map fun e => e.date.hour).count k == c) with _ | ⟨k0, fdrest⟩
      · rw [hfd] at hstab
        simp at hstab
      · rw [hfd, List.map_cons] at hstab
        injection hstab with hhead htail
        have hk0 : k0 = h := (congrArg Prod.fst hhead).symm
        have hh' : h' ∈ (firstDedup (entries.map fun e => e.date.hour)).filter
            (fun k => (entries.map fun e => e.date.hour).count k == c) :=
          List.mem_filter.mpr ⟨mem_firstDedup.mpr hmem', by simp [htie, hc]⟩
        rw [hfd] at hh'
        have hpwf := (pairwise_indexOf_firstDedup (entries.map fun e => e.date.hour)).sublist
          (@List.filter_sublist ℕ
            (fun k => (entries.map fun e => e.date.hour).count k == c)
            (firstDedup (entries.map fun e => e.date.hour)))
        rw [hfd] at hpwf
        rcases List.mem_cons.mp hh' with he | he
        · rw [he, hk0]
        · have := List.rel_of_pairwise_cons hpwf he
          rw [hk0] at this
          omega

/-- Witness for **C7**: a two-entry input where hour 13 is first-encountered
and maximal. -/
theorem claim_C7_popular_hour_witness :
    ([(⟨"R", ⟨2024, 1, 15, 13, 0, 0⟩, "GET /x.html", "200"⟩ : LogEntry),
      ⟨"R", ⟨2024, 1, 15, 7, 0, 0⟩, "GET /y.html", "200"⟩] ≠ ([] : List LogEntry)) ∧
    (∃ h, most_popular_time
        [(⟨"R", ⟨2024, 1, 15, 13, 0, 0⟩, "GET /x.html", "200"⟩ : LogEntry),
          ⟨"R", ⟨2024, 1, 15, 7, 0, 0⟩, "GET /y.html", "200"⟩] = some h ∧
      h ∈ ([⟨"R", ⟨2024, 1, 15, 13, 0, 0⟩, "GET /x.html", "200"⟩,
        ⟨"R", ⟨2024, 1, 15, 7, 0, 0⟩, "GET /y.html", "200"⟩] : List LogEntry).map
          (fun e => e.date.hour) ∧
      (∀ h' ∈ ([⟨"R", ⟨2024, 1, 15, 13, 0, 0⟩, "GET /x.html", "200"⟩,
          ⟨"R", ⟨2024, 1, 15, 7, 0, 0⟩, "GET /y.html", "200"⟩] : List LogEntry).map
            (fun e => e.date.hour),
        (([⟨"R", ⟨2024, 1, 15, 13, 0, 0⟩, "GET /x.html", "200"⟩,
          ⟨"R", ⟨2024, 1, 15, 7, 0, 0⟩, "GET /y.html", "200"⟩] : List LogEntry).map
            (fun e => e.date.hour)).count h' ≤
          (([⟨"R", ⟨2024, 1, 15, 13, 0, 0⟩, "GET /x.html", "200"⟩,
            ⟨"R", ⟨2024, 1, 15, 7, 0, 0⟩, "GET /y.html", "200"⟩] : List LogEntry).map
              (fun e => e.date.hour)).count h) ∧
      (∀ h' ∈ ([⟨"R", ⟨2024, 1, 15, 13, 0, 0⟩, "GET /x.html", "200"⟩,
          ⟨"R", ⟨2024, 1, 15, 7, 0, 0⟩, "GET /y.html", "200"⟩] : List LogEntry).map
            (fun e => e.date.hour),
        (([⟨"R", ⟨2024, 1, 15, 13, 0, 0⟩, "GET /x.html", "200"⟩,
          ⟨"R", ⟨2024, 1, 15, 7, 0, 0⟩, "GET /y.html", "200"⟩] : List LogEntry).map
            (fun e => e.date.hour)).count h' =
            (([⟨"R", ⟨2024, 1, 15, 13, 0, 0⟩, "GET /x.html", "200"⟩,
              ⟨"R", ⟨2024, 1, 15, 7, 0, 0⟩, "GET /y.html", "200"⟩] : List LogEntry).map
                (fun e => e.date.hour)).count h →
          (([⟨"R", ⟨2024, 1, 15, 13, 0, 0⟩, "GET /x.html", "200"⟩,
            ⟨"R", ⟨2024, 1, 15, 7, 0, 0⟩, "GET /y.html", "200"⟩] : List LogEntry).map
              (fun e => e.date.hour)).indexOf h ≤
            (([⟨"R", ⟨2024, 1, 15, 13, 0, 0⟩, "GET /x.html", "200"⟩,
              ⟨"R", ⟨2024, 1, 15, 7, 0, 0⟩, "GET /y.html", "200"⟩] : List LogEntry).map
                (fun e => e.date.hour)).indexOf h')) :=
  ⟨by decide,
    (claim_C7_popular_hour
      [⟨"R", ⟨2024, 1, 15, 13, 0, 0⟩, "GET /x.html", "200"⟩,
        ⟨"R", ⟨2024, 1, 15, 7, 0, 0⟩, "GET /y.html", "200"⟩]).2 (by decide)⟩

/-- **C8** counterexample: the same single-entry input processed under two
different current-time references differs in the monthly-rollup field (the
entry sits exactly at one run's 56×30-day cutoff), not merely in the
report timestamp. -/
theorem claim_C8_determinism_counterexample :
    (generate_statistics [c8entry] ⟨2024, 6, 1, 0, 0, 0⟩).monthly_requests ≠
      (generate_statistics [c8entry] ⟨2024, 5, 31, 0, 0, 0⟩).monthly_requests := by
  decide

/-- **C8** amended: the aggregation is a pure function of the entry sequence
and the current-time reference — runs with equal references agree on every
field, and the four time-independent fields (top routers, total html count,
top pages, popular hour) agree across runs for any two references; only the
monthly rollup, the average, and the report timestamp can depend on the
reference time. -/
theorem claim_C8_determinism (entries : List LogEntry) (now1 now2 : DateTime) :
    (generate_statistics entries now1).top_50_routers =
        (generate_statistics entries now2).top_50_routers ∧
    (generate_statistics entries now1).total_html_requests =
        (generate_statistics entries now2).total_html_requests ∧
    (generate_statistics entries now1).top_50_pages =
        (generate_statistics entries now2).top_50_pages ∧
    (generate_statistics entries now1).most_popular_time =
        (generate_statistics entries now2).most_popular_time ∧
    (now1 = now2 → generate_statistics entries now1 = generate_statistics entries now2) :=
  ⟨rfl, rfl, rfl, rfl, fun h => by rw [h]⟩

/-- Witness for **C8**: equal references give equal statistics records. -/
theorem claim_C8_determinism_witness :
    ((⟨2024, 6, 1, 0, 0, 0⟩ : DateTime) = ⟨2024, 6, 1, 0, 0, 0⟩) ∧
      generate_statistics [c8entry] ⟨2024, 6, 1, 0, 0, 0⟩ =
        generate_statistics [c8entry] ⟨2024, 6, 1, 0, 0, 0⟩ :=
  ⟨rfl, (claim_C8_determinism [c8entry] ⟨2024, 6, 1, 0, 0, 0⟩ ⟨2024, 6, 1, 0, 0, 0⟩).2.2.2.2 rfl⟩

/-- **C9**: the total page-load count is exactly the number of entries whose
request contains `.html` as a substring anywhere — not anchored to the
extension position, as the `.htmlfoo` instance shows. -/
theorem claim_C9_total_html (entries : List LogEntry) :
    (total_html_requests entries =
      (entries.filter fun e => decide (['.', 'h', 't', 'm', 'l'] <:+: e.request.data)).length) ∧
    total_html_requests [⟨"R", ⟨2024, 1, 1, 0, 0, 0⟩, "GET /x.htmlfoo", "200"⟩] = 1 ∧
    total_html_requests [⟨"R", ⟨2024, 1, 1, 0, 0, 0⟩, "GET /x.htm", "200"⟩] = 0 := by
  refine ⟨?_, by decide, by decide⟩
  unfold total_html_requests
  congr 1
  apply List.filter_congr
  intro e _
  by_cases h : ['.', 'h', 't', 'm', 'l'] <:+: e.request.data
  · rw [(containsSub_iff _ _).mpr h, decide_eq_true h]
  · rw [decide_eq_false h]
    exact Bool.eq_false_iff.mpr fun hc => h ((containsSub_iff _ _).mp hc)

/-- **C10**: the router field is read only by the top-routers ranking — the
other five statistics are invariant under any rewriting of every entry's
router, and a concrete loopback entry is counted in the html total, the
top pages, the monthly rollup and the popular hour while being excluded
from the router ranking. -/
theorem claim_C10_router_blind (entries : List LogEntry) (now : DateTime)
    (g : String → String) :
    (total_html_requests (entries.map fun e => ⟨g e.router, e.date, e.request, e.status_code⟩) =
      total_html_requests entries) ∧
    (top_50_pages (entries.map fun e => ⟨g e.router, e.date, e.request, e.status_code⟩) =
      top_50_pages entries) ∧
    (monthly_requests (entries.map fun e => ⟨g e.router, e.date, e.request, e.status_code⟩) now =
      monthly_requests entries now) ∧
    (average_page_loads_per_month
        (entries.map fun e => ⟨g e.router, e.date, e.request, e.status_code⟩) now =
      average_page_loads_per_month entries now) ∧
    (most_popular_time (entries.map fun e => ⟨g e.router, e.date, e.request, e.status_code⟩) =
      most_popular_time entries) ∧
    (generate_statistics [c10entry] c5now).total_html_requests = 1 ∧
    (generate_statistics [c10entry] c5now).top_50_pages = [("GET /a.html", 1)] ∧
    (generate_statistics [c10entry] c5now).monthly_requests = [("2024-01", 1)] ∧
    (generate_statistics [c10entry] c5now).most_popular_time = some 13 ∧
    (generate_statistics [c10entry] c5now).top_50_routers = [] := by
  have hpk : pageKeys (entries.map fun e => ⟨g e.router, e.date, e.request, e.status_code⟩) =
      pageKeys entries := by
    unfold pageKeys
    rw [filter_map_eq, List.map_map]
    rfl
  have hmk : monthKeys (entries.map fun e => ⟨g e.router, e.date, e.request, e.status_code⟩)
      now = monthKeys entries now := by
    unfold monthKeys
    rw [filter_map_eq, List.map_map]
    rfl
  refine ⟨?_, ?_, ?_, ?_, ?_, by decide, by decide, by decide, by decide, by decide⟩
  · unfold total_html_requests
    rw [filter_map_eq, List.length_map]
  · unfold top_50_pages
    rw [hpk]
  · unfold monthly_requests
    rw [hmk]
  · unfold average_page_loads_per_month
    rw [hmk]
  · unfold most_popular_time
    rw [List.map_map]
    rfl
